import Mathlib

/-!
Shallow embedding of `src/services/std_svc/psci/psci_setup.c` (ARM Trusted
Firmware, PSCI power-domain topology setup) and proofs of the spec claims.

The file models the two node arrays (`psci_non_cpu_pd_nodes`,
`psci_cpu_pd_nodes`), the per-CPU service data, the per-CPU non-secure
context association, and the three functions of the source:
`psci_init_pwr_domain_node`, `psci_update_pwrlvl_limits`,
`populate_power_domain_tree`, plus the entry point `psci_setup`.

C `assert` aborts are modelled by `Option`: a function that can fail an
assertion returns `none` exactly when the assertion would fire.
Machine-integer quirks that matter are kept: `parent_node_index - 1` is
computed in `Int` (the C value is an `unsigned` that is immediately stored
into an `int` field, reading back as `-1` when `parent_node_index = 0`).

Helpers that live outside `src/` (`psci_get_parent_pwr_domain_nodes` and
`psci_do_state_coordination` from `psci_common.c`, and the numeric constants
of `psci.h`) are modelled from the spec; each such definition says so in its
doc comment.
-/

namespace Psci

/-- Modelled from the spec: the power-state enumeration {OFF, ON, ON_PENDING}
of `psci.h` (outside `src/`); only distinctness of the values matters here. -/
inductive PowerState where
  | on
  | off
  | onPending
deriving DecidableEq, Repr

/-- `PSCI_CPU_PWR_LVL`: the hierarchy level of CPU leaf nodes (0). -/
def PSCI_CPU_PWR_LVL : Int := 0

/-- Modelled from the spec: `PSCI_INVALID_DATA` of `psci_private.h` (outside
`src/`), the sentinel marking the suspend context slot invalid. -/
def PSCI_INVALID_DATA : Int := -1

/-- One entry of `psci_non_cpu_pd_nodes[]` (a non-leaf power-domain node).
The `psci_state` field is modelled from the spec: it is the per-node power
state written by `psci_do_state_coordination` (which lives outside `src/`);
the code under `src/` never touches it. `lock_inited` records that
`psci_lock_init` ran on the slot. -/
structure NonCpuNode where
  level : Int
  parent_node : Int
  cpu_start_idx : Nat
  ncpus : Nat
  lock_inited : Bool
  psci_state : PowerState
deriving DecidableEq, Repr

/-- One entry of `psci_cpu_pd_nodes[]` (a CPU leaf node). -/
structure CpuNode where
  parent_node : Int
  mpidr : Int
deriving DecidableEq, Repr

/-- The per-CPU `psci_svc_cpu_data` fields written here via
`set_cpu_data_by_index`. -/
structure SvcCpuData where
  psci_state : PowerState
  power_state : Int
deriving DecidableEq, Repr

/-- The mutable global state touched by the setup code.  `ns_ctx i = some k`
models that `cm_set_context_by_index` associated CPU `i` with
`&psci_ns_context[k]`.  Cache flushes are no-ops in the model. -/
structure Sys where
  non_cpu_pd_nodes : Nat → NonCpuNode
  cpu_pd_nodes : Nat → CpuNode
  cpu_data : Nat → SvcCpuData
  ns_ctx : Nat → Option Nat

/-- Platform build-time constants. -/
structure Plat where
  PLATFORM_CORE_COUNT : Nat
  PLAT_MAX_PWR_LVL : Nat
  PSCI_NUM_PWR_DOMAINS : Nat

def updNonCpu (s : Sys) (i : Nat) (f : NonCpuNode → NonCpuNode) : Sys :=
  { s with non_cpu_pd_nodes := fun k =>
      if k = i then f (s.non_cpu_pd_nodes k) else s.non_cpu_pd_nodes k }

def updCpu (s : Sys) (i : Nat) (f : CpuNode → CpuNode) : Sys :=
  { s with cpu_pd_nodes := fun k =>
      if k = i then f (s.cpu_pd_nodes k) else s.cpu_pd_nodes k }

def updData (s : Sys) (i : Nat) (f : SvcCpuData → SvcCpuData) : Sys :=
  { s with cpu_data := fun k =>
      if k = i then f (s.cpu_data k) else s.cpu_data k }

def updCtx (s : Sys) (i : Nat) (v : Option Nat) : Sys :=
  { s with ns_ctx := fun k => if k = i then v else s.ns_ctx k }

/-- `psci_init_pwr_domain_node` (src lines 59–96): initialize one slot.  A
level above `PSCI_CPU_PWR_LVL` goes to `psci_non_cpu_pd_nodes` (level,
lock init, parent); the CPU level goes to `psci_cpu_pd_nodes` (parent,
invalid mpidr, state OFF, invalid suspend context, non-secure context
association by the same index). -/
def psci_init_pwr_domain_node (array_idx : Nat) (parent_idx : Int)
    (level : Int) (s : Sys) : Sys :=
  if PSCI_CPU_PWR_LVL < level then
    updNonCpu s array_idx fun n =>
      { n with level := level, lock_inited := true, parent_node := parent_idx }
  else
    let s1 := updCpu s array_idx fun c => { c with parent_node := parent_idx }
    let s2 := updCpu s1 array_idx fun c => { c with mpidr := -1 }
    let s3 := updData s2 array_idx fun d => { d with psci_state := PowerState.off }
    let s4 := updData s3 array_idx fun d => { d with power_state := PSCI_INVALID_DATA }
    updCtx s4 array_idx (some array_idx)

/-- The inner `for (j = node_index; j < node_index + num_children; j++)`
loop of `populate_power_domain_tree` (src lines 164–168): allocate
`num_children` consecutive slots starting at `node_index`. -/
def initChildren (node_index : Nat) (num_children : Nat) (parent_idx : Int)
    (level : Int) (s : Sys) : Sys :=
  match num_children with
  | 0 => s
  | n + 1 =>
      initChildren (node_index + 1) n parent_idx level
        (psci_init_pwr_domain_node node_index parent_idx level s)

/-- The per-parent `for (i = 0; i < num_nodes_at_lvl; i++)` loop of
`populate_power_domain_tree` (src lines 159–173).  Returns
`(state, node_index, num_nodes_at_next_lvl, parent_node_index, j)`;
`none` models the `assert(parent_node_index <= PSCI_NUM_PWR_DOMAINS -
PLATFORM_CORE_COUNT)` firing. -/
def doParentsLoop (cfg : Plat) (plat_array : Nat → Nat) (level : Int) :
    Nat → Nat → Nat → Nat → Nat → Sys → Option (Sys × Nat × Nat × Nat × Nat)
  | 0, pni, node_index, acc, j, s => some (s, node_index, acc, pni, j)
  | n + 1, pni, node_index, acc, _, s =>
      if pni ≤ cfg.PSCI_NUM_PWR_DOMAINS - cfg.PLATFORM_CORE_COUNT then
        let num_children := plat_array pni
        let s' := initChildren node_index num_children ((pni : Int) - 1) level s
        doParentsLoop cfg plat_array level n (pni + 1)
          (node_index + num_children) (acc + num_children)
          (node_index + num_children) s'
      else
        none

/-- The `while (num_levels >= 0)` loop of `populate_power_domain_tree`
(src lines 149–181), processing levels `lvl, lvl-1, …, 0`.  The
`node_index` is reset to 0 when descending to the CPU level.  Returns the
final state and the final value of `j`. -/
def treeLoop (cfg : Plat) (plat_array : Nat → Nat) :
    Nat → Nat → Nat → Nat → Nat → Sys → Option (Sys × Nat)
  | 0, num_nodes_at_lvl, pni, node_index, j, s =>
      match doParentsLoop cfg plat_array ((0 : Nat) : Int)
          num_nodes_at_lvl pni node_index 0 j s with
      | none => none
      | some (s', _, _, _, j') => some (s', j')
  | l + 1, num_nodes_at_lvl, pni, node_index, j, s =>
      match doParentsLoop cfg plat_array ((l + 1 : Nat) : Int)
          num_nodes_at_lvl pni node_index 0 j s with
      | none => none
      | some (s', node_index', nextLvl, pni', j') =>
          treeLoop cfg plat_array l nextLvl pni'
            (if l = 0 then 0 else node_index') j' s'

/-- `populate_power_domain_tree` (src lines 134–185).  `none` models an
assertion abort: either the capacity assert inside the loop, or the final
`assert(j == PLATFORM_CORE_COUNT)`. -/
def populate_power_domain_tree (cfg : Plat) (plat_array : Nat → Nat)
    (num_levels : Nat) (s : Sys) : Option Sys :=
  match treeLoop cfg plat_array num_levels 1 0 0 0 s with
  | none => none
  | some (s', j) =>
      if j = cfg.PLATFORM_CORE_COUNT then some s' else none

/-- Modelled from the spec: `psci_get_parent_pwr_domain_nodes`
(`psci_common.c`, outside `src/`) computes the ancestor of a CPU leaf at
every hierarchy level above the leaf by walking `parent_node` repeatedly.
`psci_ancestor s c 0 = c`; `psci_ancestor s c (k+1)` is the index of the
ancestor of CPU `c` at level `k+1` (an index into
`psci_non_cpu_pd_nodes`). -/
def psci_ancestor (s : Sys) (cpu_idx : Nat) : Nat → Int
  | 0 => Int.ofNat cpu_idx
  | 1 => (s.cpu_pd_nodes cpu_idx).parent_node
  | k + 2 => (s.non_cpu_pd_nodes (psci_ancestor s cpu_idx (k + 1)).toNat).parent_node

/-- The `temp_index` array filled by `psci_get_parent_pwr_domain_nodes`:
entry `j` is the ancestor of `cpu_idx` at level `j+1`, stored as an
`unsigned int`. -/
def temp_index (s : Sys) (cpu_idx : Nat) (j : Nat) : Nat :=
  (psci_ancestor s cpu_idx (j + 1)).toNat

/-- The inner `for (j = PLAT_MAX_PWR_LVL - 1; j >= 0; j--)` loop of
`psci_update_pwrlvl_limits` (src lines 117–124), for one CPU.  The fuel
argument `f+1` processes `j = f` and recurses; `tmp` is the `temp_index`
array already computed for this CPU. -/
def updateLimitsInner (cpu_idx : Nat) (tmp : Nat → Nat) :
    Nat → (Nat → Nat) → Sys → ((Nat → Nat) × Sys)
  | 0, nodes_idx, s => (nodes_idx, s)
  | f + 1, nodes_idx, s =>
      let step : (Nat → Nat) × Sys :=
        if tmp f ≠ nodes_idx f then
          (fun k => if k = f then tmp f else nodes_idx k,
           updNonCpu s (tmp f) fun n => { n with cpu_start_idx := cpu_idx })
        else
          (nodes_idx, s)
      let s2 := updNonCpu step.2 (step.1 f) fun n => { n with ncpus := n.ncpus + 1 }
      updateLimitsInner cpu_idx tmp f step.1 s2

/-- The outer `for (cpu_idx = 0; …)` loop of `psci_update_pwrlvl_limits`
(src lines 113–125): `remaining` CPUs starting at `cpu_idx`. -/
def updateLimitsOuter (lmax : Nat) :
    Nat → Nat → (Nat → Nat) → Sys → Sys
  | 0, _, _, s => s
  | n + 1, cpu_idx, nodes_idx, s =>
      let tmp := temp_index s cpu_idx
      let r := updateLimitsInner cpu_idx tmp lmax nodes_idx s
      updateLimitsOuter lmax n (cpu_idx + 1) r.1 r.2

/-- `psci_update_pwrlvl_limits` (src lines 107–126): computes
`cpu_start_idx` and `ncpus` for every node of `psci_non_cpu_pd_nodes`
reachable as an ancestor, one linear pass over the CPUs.  `nodes_idx`
starts as all zeros (`= {0}` in the C). -/
def psci_update_pwrlvl_limits (cfg : Plat) (s : Sys) : Sys :=
  updateLimitsOuter cfg.PLAT_MAX_PWR_LVL cfg.PLATFORM_CORE_COUNT 0 (fun _ => 0) s

/-- Modelled from the spec: the step of `psci_do_state_coordination`
(`psci_common.c`, outside `src/`) that marks the ancestor nodes of
`cpu_idx` at levels `lvl, lvl-1, …, 1` with the given state, walking the
ancestor chain from the top configured level down. -/
def markAncestors (cpu_idx : Nat) (st : PowerState) :
    Nat → Sys → Sys
  | 0, s => s
  | l + 1, s =>
      markAncestors cpu_idx st l
        (updNonCpu s (temp_index s cpu_idx l) fun n => { n with psci_state := st })

/-- Modelled from the spec: `psci_do_state_coordination`
(`psci_common.c`, outside `src/`), as used at src lines 242–243: walk the
ancestor chain of the given CPU from the top configured level down to the
leaf and mark every node on that path with the given state. -/
def psci_do_state_coordination (end_pwrlvl : Nat) (cpu_idx : Nat)
    (st : PowerState) (s : Sys) : Sys :=
  let s1 := markAncestors cpu_idx st end_pwrlvl s
  updData s1 cpu_idx fun d => { d with psci_state := st }

/-- The optional platform power-management hooks relevant to `psci_setup`
(`plat_psci_ops` table): `true` means the function pointer is non-NULL. -/
structure PlatPmOps where
  pwr_domain_on : Bool
  pwr_domain_off : Bool
  pwr_domain_suspend : Bool
  pwr_domain_on_finish : Bool
  pwr_domain_suspend_finish : Bool
  system_off : Bool
  system_reset : Bool
deriving DecidableEq, Repr

/-- Modelled from the spec: `define_psci_cap` of `psci_private.h` (outside
`src/`): capability bit of a PSCI function id, `1 << (fid & 0x1f)`. -/
def define_psci_cap (fid : Nat) : Nat := 2 ^ (fid % 32)

/-- Modelled from the spec: PSCI function identifiers (`psci.h`, outside
`src/`). Only the induced bit positions (2, 3, 1, 8, 9 and the generic
bits 0, 4, 10) matter: each capability occupies a distinct bit. -/
def PSCI_VERSION : Nat := 0x84000000
def PSCI_CPU_SUSPEND_AARCH64 : Nat := 0xc4000001
def PSCI_CPU_OFF : Nat := 0x84000002
def PSCI_CPU_ON_AARCH64 : Nat := 0xc4000003
def PSCI_AFFINITY_INFO_AARCH64 : Nat := 0xc4000004
def PSCI_SYSTEM_OFF : Nat := 0x84000008
def PSCI_SYSTEM_RESET : Nat := 0x84000009
def PSCI_FEATURES : Nat := 0x8400000A

/-- Modelled from the spec: `PSCI_GENERIC_CAP` of `psci_private.h`
(outside `src/`), the baseline capability set. -/
def PSCI_GENERIC_CAP : Nat :=
  define_psci_cap PSCI_VERSION |||
  define_psci_cap PSCI_AFFINITY_INFO_AARCH64 |||
  define_psci_cap PSCI_FEATURES

/-- The capability derivation of `psci_setup` (src lines 248–262). -/
def compute_psci_caps (ops : PlatPmOps) : Nat :=
  let c0 := PSCI_GENERIC_CAP
  let c1 := if ops.pwr_domain_off then c0 ||| define_psci_cap PSCI_CPU_OFF else c0
  let c2 := if ops.pwr_domain_on && ops.pwr_domain_on_finish then
              c1 ||| define_psci_cap PSCI_CPU_ON_AARCH64 else c1
  let c3 := if ops.pwr_domain_suspend && ops.pwr_domain_suspend_finish then
              c2 ||| define_psci_cap PSCI_CPU_SUSPEND_AARCH64 else c2
  let c4 := if ops.system_off then c3 ||| define_psci_cap PSCI_SYSTEM_OFF else c3
  if ops.system_reset then c4 ||| define_psci_cap PSCI_SYSTEM_RESET else c4

/-- `psci_setup` (src lines 208–265).  Environment inputs: the platform
topology description (`platform_get_power_domain_tree_desc`), the calling
CPU's position (`platform_my_core_pos`), its masked MPIDR
(`read_mpidr() & MPIDR_AFFINITY_MASK`), and the hook table installed by
`platform_setup_pm` (`none` models a NULL `psci_plat_pm_ops`).  Returns
the final state, the capability mask and the `int32_t` return value;
`none` models an assertion abort (inside `populate_power_domain_tree`, or
`assert(psci_plat_pm_ops)`). -/
def psci_setup (cfg : Plat) (topology_tree : Nat → Nat)
    (my_core_pos : Nat) (my_mpidr_aff : Int) (ops : Option PlatPmOps)
    (s : Sys) : Option (Sys × Nat × Int) :=
  match populate_power_domain_tree cfg topology_tree cfg.PLAT_MAX_PWR_LVL s with
  | none => none
  | some s1 =>
      let s2 := psci_update_pwrlvl_limits cfg s1
      let s3 := updCpu s2 my_core_pos fun c => { c with mpidr := my_mpidr_aff }
      let s4 := psci_do_state_coordination cfg.PLAT_MAX_PWR_LVL my_core_pos
                  PowerState.on s3
      match ops with
      | none => none
      | some o => some (s4, compute_psci_caps o, 0)

/-- An initial state matching the zero-initialized (BSS) global arrays of
the C program: aggregates are 0, no lock initialized, non-leaf states OFF.
The per-CPU `psci_state` is deliberately set to a non-OFF value so that a
leaf reading OFF afterwards can only come from the initialization pass. -/
def initSys : Sys :=
  { non_cpu_pd_nodes := fun _ =>
      { level := 0, parent_node := 0, cpu_start_idx := 0, ncpus := 0,
        lock_inited := false, psci_state := PowerState.off }
    cpu_pd_nodes := fun _ => { parent_node := 0, mpidr := 0 }
    cpu_data := fun _ => { psci_state := PowerState.on, power_state := 0 }
    ns_ctx := fun _ => none }

/-- The example platform of the spec and of the source's own comment block
(src lines 194–206): two clusters of two CPUs, three levels. -/
def cfg4 : Plat :=
  { PLATFORM_CORE_COUNT := 4, PLAT_MAX_PWR_LVL := 2, PSCI_NUM_PWR_DOMAINS := 7 }

/-- The example topology description `[1, 2, 2, 2]`. -/
def desc4 : Nat → Nat
  | 0 => 1
  | 1 => 2
  | 2 => 2
  | 3 => 2
  | _ => 0

/-- The state after running the tree builder on the example topology. -/
def built4 : Sys :=
  (populate_power_domain_tree cfg4 desc4 2 initSys).getD initSys

/-- The example state after the range-aggregation pass. -/
def limits4 : Sys := psci_update_pwrlvl_limits cfg4 built4

/-- The example state after marking the booting CPU's path ON. -/
def final4 (boot : Nat) : Sys :=
  psci_do_state_coordination 2 boot PowerState.on limits4

/-- The hook table with every pointer non-NULL. -/
def opsAll : PlatPmOps :=
  { pwr_domain_on := true, pwr_domain_off := true, pwr_domain_suspend := true,
    pwr_domain_on_finish := true, pwr_domain_suspend_finish := true,
    system_off := true, system_reset := true }

/-- The result of `psci_setup` on the example platform (booting CPU 0,
masked MPIDR 17, all hooks present). -/
def setup4val : Sys × Nat × Int :=
  (psci_setup cfg4 desc4 0 17 (some opsAll) initSys).getD (initSys, 0, 0)

/-- The `ncpus` field of slot `i` of `psci_non_cpu_pd_nodes`. -/
def ncpusOf (s : Sys) (i : Nat) : Nat := (s.non_cpu_pd_nodes i).ncpus

/-- The `cpu_start_idx` field of slot `i` of `psci_non_cpu_pd_nodes`. -/
def startOf (s : Sys) (i : Nat) : Nat := (s.non_cpu_pd_nodes i).cpu_start_idx

/-- The index-contiguity obligation on the built tree at one hierarchy
level: CPUs sharing the ancestor at level `j+1` occupy contiguous CPU
indices (between two CPUs with the same ancestor, every CPU has that
ancestor).  This is the documented caller contract of
`psci_update_pwrlvl_limits` ("children of the same parent are allocated
adjacent indices"). -/
def AncContiguous (s : Sys) (ncount : Nat) (j : Nat) : Prop :=
  ∀ c1 c2 c3, c1 ≤ c2 → c2 ≤ c3 → c3 < ncount →
    temp_index s c1 j = temp_index s c3 j →
    temp_index s c2 j = temp_index s c1 j

instance (s : Sys) (ncount j : Nat) : Decidable (AncContiguous s ncount j) := by
  unfold AncContiguous
  refine decidable_of_iff
    (∀ c3 < ncount, ∀ c2 ≤ c3, ∀ c1 ≤ c2,
      temp_index s c1 j = temp_index s c3 j →
      temp_index s c2 j = temp_index s c1 j) ⟨fun h c1 c2 c3 h12 h23 h3 => h c3 h3 c2 h23 c1 h12, fun h c3 h3 c2 h23 c1 h12 => h c1 c2 c3 h12 h23 h3⟩

/-- `Assigns s L ni c k i` says that while processing CPU `c + k` (the
k-th CPU of a run that started at CPU `c` with `nodes_idx = ni`), some
level `j < L` triggers the `cpu_start_idx` write to node `i`: the CPU's
ancestor at that level is `i` and differs from the recorded previous
ancestor (`ni j` for the first CPU of the run, the previous CPU's
ancestor otherwise). -/
def Assigns (s : Sys) (L : Nat) (ni : Nat → Nat) (c k i : Nat) : Prop :=
  ∃ j, j < L ∧ temp_index s (c + k) j = i ∧
    temp_index s (c + k) j ≠ (if k = 0 then ni j else temp_index s (c + k - 1) j)

/-- `x` lies in the CPU range `[cpu_start_idx, cpu_start_idx + ncpus)`
recorded for node `i`. -/
def inRange (s : Sys) (i x : Nat) : Prop :=
  (s.non_cpu_pd_nodes i).cpu_start_idx ≤ x ∧
  x < (s.non_cpu_pd_nodes i).cpu_start_idx + (s.non_cpu_pd_nodes i).ncpus

instance (s : Sys) (i x : Nat) : Decidable (inRange s i x) := by
  unfold inRange; infer_instance

/-- The per-level layout of a topology description: `descWidths arr k`
is the pair (offset of the first entry, number of entries) of the k-th
tier of the flat array, the first tier being the single entry holding the
number of root nodes. -/
def descWidths (arr : Nat → Nat) : Nat → Nat × Nat
  | 0 => (0, 1)
  | k + 1 =>
      let p := descWidths arr k
      (p.1 + p.2, (Finset.range p.2).sum fun t => arr (p.1 + t))

/-- The number of CPU leaves a topology description decodes to, for a
tree with `num_levels` levels above the CPU level. -/
def leafCount (arr : Nat → Nat) (num_levels : Nat) : Nat :=
  (descWidths arr (num_levels + 1)).2

/-- A CPU leaf slot carries the initialization performed by
`psci_init_pwr_domain_node` at the CPU level (except for the
parent link, which varies): invalid mpidr, state OFF, invalid suspend
context, associated non-secure context. -/
def cpuInit (s : Sys) (c : Nat) : Prop :=
  (s.cpu_pd_nodes c).mpidr = -1 ∧
  (s.cpu_data c).psci_state = PowerState.off ∧
  (s.cpu_data c).power_state = PSCI_INVALID_DATA ∧
  s.ns_ctx c = some c

instance (s : Sys) (c : Nat) : Decidable (cpuInit s c) := by
  unfold cpuInit; infer_instance

/-- A 2-CPU, 3-level platform used to exhibit the stale-`j` assertion
miss. -/
def cfgBug : Plat :=
  { PLATFORM_CORE_COUNT := 2, PLAT_MAX_PWR_LVL := 2, PSCI_NUM_PWR_DOMAINS := 5 }

/-- A malformed description: two root nodes, each with zero children, so
zero CPU leaves are decoded. -/
def descBug : Nat → Nat
  | 0 => 2
  | _ => 0

/-- The (incorrectly accepted) builder output on `descBug`. -/
def builtBug : Sys :=
  (populate_power_domain_tree cfgBug descBug 2 initSys).getD initSys

/-- The example built tree with poisoned aggregate fields on node 0,
exhibiting that the range aggregator is only correct when `ncpus` and
`cpu_start_idx` are zero on entry. -/
def poisoned4 : Sys :=
  updNonCpu built4 0 fun n => { n with ncpus := 5, cpu_start_idx := 7 }

end Psci

namespace Psci

/-- C7: `psci_init_pwr_domain_node` performs exactly the specified
initialization.  For a level above the CPU level it sets `level`,
`parent_node` and initializes the lock of slot `idx` of
`psci_non_cpu_pd_nodes`, leaving every other field, slot and array
unchanged; for the CPU level it sets `parent_node`, an invalid `mpidr`
(-1), power state OFF, an invalid suspend-context slot, and associates
the CPU's dedicated non-secure context by the same index, leaving every
other slot and array unchanged. -/
theorem C7_init_node_effects (s : Sys) (idx : Nat) (pidx lvl : Int) :
    (PSCI_CPU_PWR_LVL < lvl →
      ((psci_init_pwr_domain_node idx pidx lvl s).non_cpu_pd_nodes idx =
         { s.non_cpu_pd_nodes idx with
             level := lvl, lock_inited := true, parent_node := pidx } ∧
       (∀ k, k ≠ idx →
         (psci_init_pwr_domain_node idx pidx lvl s).non_cpu_pd_nodes k =
           s.non_cpu_pd_nodes k) ∧
       (psci_init_pwr_domain_node idx pidx lvl s).cpu_pd_nodes = s.cpu_pd_nodes ∧
       (psci_init_pwr_domain_node idx pidx lvl s).cpu_data = s.cpu_data ∧
       (psci_init_pwr_domain_node idx pidx lvl s).ns_ctx = s.ns_ctx)) ∧
    (lvl ≤ PSCI_CPU_PWR_LVL →
      ((psci_init_pwr_domain_node idx pidx lvl s).cpu_pd_nodes idx =
         { parent_node := pidx, mpidr := -1 } ∧
       (psci_init_pwr_domain_node idx pidx lvl s).cpu_data idx =
         { psci_state := PowerState.off, power_state := PSCI_INVALID_DATA } ∧
       (psci_init_pwr_domain_node idx pidx lvl s).ns_ctx idx = some idx ∧
       (∀ k, k ≠ idx →
         (psci_init_pwr_domain_node idx pidx lvl s).cpu_pd_nodes k =
           s.cpu_pd_nodes k ∧
         (psci_init_pwr_domain_node idx pidx lvl s).cpu_data k = s.cpu_data k ∧
         (psci_init_pwr_domain_node idx pidx lvl s).ns_ctx k = s.ns_ctx k) ∧
       (psci_init_pwr_domain_node idx pidx lvl s).non_cpu_pd_nodes =
         s.non_cpu_pd_nodes)) := by
  constructor
  · intro h
    simp only [psci_init_pwr_domain_node, if_pos h, updNonCpu]
    refine ⟨by simp, fun k hk => by simp [hk], by trivial, by trivial, by trivial⟩
  · intro h
    have h' : ¬ PSCI_CPU_PWR_LVL < lvl := not_lt.mpr h
    simp only [psci_init_pwr_domain_node, if_neg h', updCpu, updData, updCtx]
    refine ⟨by simp, by simp, by simp,
      fun k hk => ⟨by simp [hk], by simp [hk], by simp [hk]⟩, by trivial⟩

/-- Closed instance of `C7_init_node_effects` at concrete inputs, one for
each branch. -/
theorem C7_init_node_effects_witness :
    ((psci_init_pwr_domain_node 0 (-1) 1 initSys).non_cpu_pd_nodes 0 =
       { initSys.non_cpu_pd_nodes 0 with
           level := 1, lock_inited := true, parent_node := -1 }) ∧
    ((psci_init_pwr_domain_node 2 1 0 initSys).cpu_pd_nodes 2 =
       { parent_node := 1, mpidr := -1 }) :=
  ⟨((C7_init_node_effects initSys 0 (-1) 1).1 (by decide)).1,
   ((C7_init_node_effects initSys 2 1 0).2 (by decide)).1⟩

/-- C2: after a completing `psci_setup`, the capability mask contains the
generic baseline, and each further capability bit is set iff its hook
pair is present: bit 2 (CPU_OFF) iff `pwr_domain_off`; bit 3 (CPU_ON)
iff `pwr_domain_on` and `pwr_domain_on_finish`; bit 1 (CPU_SUSPEND) iff
`pwr_domain_suspend` and `pwr_domain_suspend_finish`; bit 8 (SYSTEM_OFF)
iff `system_off`; bit 9 (SYSTEM_RESET) iff `system_reset`. -/
theorem C2_capability_mask (cfg : Plat) (arr : Nat → Nat) (pos : Nat)
    (mp : Int) (ops : PlatPmOps) (s s' : Sys) (caps : Nat) (r : Int)
    (h : psci_setup cfg arr pos mp (some ops) s = some (s', caps, r)) :
    PSCI_GENERIC_CAP ||| caps = caps ∧
    Nat.testBit caps 2 = ops.pwr_domain_off ∧
    Nat.testBit caps 3 = (ops.pwr_domain_on && ops.pwr_domain_on_finish) ∧
    Nat.testBit caps 1 = (ops.pwr_domain_suspend && ops.pwr_domain_suspend_finish) ∧
    Nat.testBit caps 8 = ops.system_off ∧
    Nat.testBit caps 9 = ops.system_reset := by
  have hc : caps = compute_psci_caps ops := by
    unfold psci_setup at h
    rcases hm : populate_power_domain_tree cfg arr cfg.PLAT_MAX_PWR_LVL s with _ | s1
    · rw [hm] at h; exact absurd h (by simp)
    · rw [hm] at h
      simp only [Option.some.injEq, Prod.mk.injEq] at h
      exact h.2.1.symm
  subst hc
  rcases ops with ⟨a, b, c, d, e, f, g⟩
  cases a <;> cases b <;> cases c <;> cases d <;> cases e <;> cases f <;> cases g <;>
    decide

/-- Closed instance of `C2_capability_mask` on the example platform with
every hook present. -/
theorem C2_capability_mask_witness :
    PSCI_GENERIC_CAP ||| setup4val.2.1 = setup4val.2.1 ∧
    Nat.testBit setup4val.2.1 2 = opsAll.pwr_domain_off ∧
    Nat.testBit setup4val.2.1 3 =
      (opsAll.pwr_domain_on && opsAll.pwr_domain_on_finish) ∧
    Nat.testBit setup4val.2.1 1 =
      (opsAll.pwr_domain_suspend && opsAll.pwr_domain_suspend_finish) ∧
    Nat.testBit setup4val.2.1 8 = opsAll.system_off ∧
    Nat.testBit setup4val.2.1 9 = opsAll.system_reset :=
  C2_capability_mask cfg4 desc4 0 17 opsAll initSys setup4val.1 setup4val.2.1
    setup4val.2.2 (by rfl)

/-- C10: every execution of `psci_setup` that returns (is not an
assertion abort) returns 0. -/
theorem C10_returns_zero (cfg : Plat) (arr : Nat → Nat) (pos : Nat)
    (mp : Int) (ops : Option PlatPmOps) (s s' : Sys) (caps : Nat) (r : Int)
    (h : psci_setup cfg arr pos mp ops s = some (s', caps, r)) : r = 0 := by
  unfold psci_setup at h
  rcases hm : populate_power_domain_tree cfg arr cfg.PLAT_MAX_PWR_LVL s with _ | s1
  · rw [hm] at h; exact absurd h (by simp)
  · rw [hm] at h
    rcases ops with _ | o
    · exact absurd h (by simp)
    · simp only [Option.some.injEq, Prod.mk.injEq] at h
      exact h.2.2.symm

/-- Closed instance of `C10_returns_zero` on the example platform. -/
theorem C10_returns_zero_witness : setup4val.2.2 = 0 :=
  C10_returns_zero cfg4 desc4 0 17 (some opsAll) initSys setup4val.1
    setup4val.2.1 setup4val.2.2 (by rfl)

/-- Characterization of the bootstrap abort cases: `psci_setup` aborts
iff the tree builder aborts or the requested hook table is NULL; the
tree builder aborts iff either the in-loop capacity assertion fires or
the final value of `j` differs from `PLATFORM_CORE_COUNT`; and the
in-loop abort is precisely the description index exceeding the capacity
bound `PSCI_NUM_PWR_DOMAINS - PLATFORM_CORE_COUNT`.  (Note the second
case tests the loop variable `j`, not the decoded leaf count — see
`C3_leaf_count_assert_bypassed` for a description on which the two
differ.) -/
theorem psci_setup_abort_characterization (cfg : Plat) (arr : Nat → Nat) (pos : Nat)
    (mp : Int) (ops : Option PlatPmOps) (s : Sys) :
    (psci_setup cfg arr pos mp ops s = none ↔
      (populate_power_domain_tree cfg arr cfg.PLAT_MAX_PWR_LVL s = none ∨
       ops = none)) ∧
    (populate_power_domain_tree cfg arr cfg.PLAT_MAX_PWR_LVL s = none ↔
      (treeLoop cfg arr cfg.PLAT_MAX_PWR_LVL 1 0 0 0 s = none ∨
       ∃ p, treeLoop cfg arr cfg.PLAT_MAX_PWR_LVL 1 0 0 0 s = some p ∧
         p.2 ≠ cfg.PLATFORM_CORE_COUNT)) ∧
    (∀ (lvl : Int) (r pni ni acc j : Nat) (s0 : Sys),
      doParentsLoop cfg arr lvl r pni ni acc j s0 = none ↔
        (0 < r ∧
         cfg.PSCI_NUM_PWR_DOMAINS - cfg.PLATFORM_CORE_COUNT < pni + (r - 1))) := by
  refine ⟨?_, ?_, ?_⟩
  · unfold psci_setup
    rcases hm : populate_power_domain_tree cfg arr cfg.PLAT_MAX_PWR_LVL s with _ | s1
    · simp
    · rcases ops with _ | o <;> simp
  · unfold populate_power_domain_tree
    rcases ht : treeLoop cfg arr cfg.PLAT_MAX_PWR_LVL 1 0 0 0 s with _ | p
    · simp
    · rcases p with ⟨s', j⟩
      by_cases hj : j = cfg.PLATFORM_CORE_COUNT <;> simp [hj]
  · intro lvl r
    induction r with
    | zero => intro pni ni acc j s0; simp [doParentsLoop]
    | succ n ih =>
        intro pni ni acc j s0
        by_cases hc : pni ≤ cfg.PSCI_NUM_PWR_DOMAINS - cfg.PLATFORM_CORE_COUNT
        · rw [doParentsLoop, if_pos hc, ih]
          constructor
          · rintro ⟨hn, hlt⟩
            refine ⟨Nat.succ_pos n, ?_⟩
            have : 0 < n := hn
            omega
          · rintro ⟨-, hlt⟩
            have hn : 0 < n := by
              rcases Nat.eq_zero_or_pos n with h0 | h0
              · subst h0; omega
              · exact h0
            exact ⟨hn, by omega⟩
        · rw [doParentsLoop, if_neg hc]
          have hlt : cfg.PSCI_NUM_PWR_DOMAINS - cfg.PLATFORM_CORE_COUNT <
              pni + (n + 1 - 1) := by omega
          exact ⟨fun _ => ⟨Nat.succ_pos n, hlt⟩, fun _ => rfl⟩

/-- C3: the claim (and the spec, §7/§8) requires an abort — not silent
truncation — whenever the decoded description does not produce exactly
`PLATFORM_CORE_COUNT` CPU leaves.  The code instead asserts
`j == PLATFORM_CORE_COUNT` where `j` is a loop variable that goes stale
when the CPU level iterates over zero parents: on the description
`[2, 0, 0]` (two root nodes with no children) with
`PLATFORM_CORE_COUNT = 2`, zero CPU leaves are decoded, yet
`populate_power_domain_tree` completes without an assertion abort and
every CPU leaf slot is left uninitialized. -/
theorem C3_leaf_count_assert_bypassed :
    leafCount descBug 2 = 0 ∧
    cfgBug.PLATFORM_CORE_COUNT = 2 ∧
    populate_power_domain_tree cfgBug descBug 2 initSys = some builtBug ∧
    (∀ c : Fin 2, (builtBug.cpu_pd_nodes c).mpidr ≠ -1 ∧
      (builtBug.cpu_data c).psci_state ≠ PowerState.off ∧
      builtBug.ns_ctx c = none) :=
  ⟨by decide, rfl, rfl, by decide⟩

/-- C4: on the concrete topology `[1, 2, 2, 2]` (two clusters of two CPUs,
three levels) the builder and the range aggregator yield the system node
with `ncpus = 4`, two cluster nodes with `ncpus = 2` and `cpu_start_idx`
0 and 2, and four CPU leaves at indices 0–3 (clusters' children 0,1 and
2,3), all OFF after construction; after marking, only the booting CPU's
leaf and its two ancestors are ON. -/
theorem C4_example_topology :
    (populate_power_domain_tree cfg4 desc4 2 initSys).isSome = true ∧
    (limits4.non_cpu_pd_nodes 0).ncpus = 4 ∧
    (limits4.non_cpu_pd_nodes 0).cpu_start_idx = 0 ∧
    (limits4.non_cpu_pd_nodes 1).ncpus = 2 ∧
    (limits4.non_cpu_pd_nodes 1).cpu_start_idx = 0 ∧
    (limits4.non_cpu_pd_nodes 2).ncpus = 2 ∧
    (limits4.non_cpu_pd_nodes 2).cpu_start_idx = 2 ∧
    (∀ c : Fin 4, (built4.cpu_pd_nodes c).mpidr = -1 ∧
      (built4.cpu_pd_nodes c).parent_node = (if c.val < 2 then 1 else 2) ∧
      (built4.cpu_data c).psci_state = PowerState.off) ∧
    (∀ boot : Fin 4,
      ((final4 boot).cpu_data boot).psci_state = PowerState.on ∧
      (∀ c : Fin 4, c ≠ boot →
        ((final4 boot).cpu_data c).psci_state = PowerState.off) ∧
      ((final4 boot).non_cpu_pd_nodes (temp_index limits4 boot 0)).psci_state =
        PowerState.on ∧
      ((final4 boot).non_cpu_pd_nodes (temp_index limits4 boot 1)).psci_state =
        PowerState.on ∧
      (∀ k : Fin 3, k.val ≠ temp_index limits4 boot 0 →
        k.val ≠ temp_index limits4 boot 1 →
        ((final4 boot).non_cpu_pd_nodes k).psci_state = PowerState.off)) := by
  decide

theorem updNonCpu_cpu (s : Sys) (i : Nat) (f : NonCpuNode → NonCpuNode) :
    (updNonCpu s i f).cpu_pd_nodes = s.cpu_pd_nodes := rfl

theorem updNonCpu_data (s : Sys) (i : Nat) (f : NonCpuNode → NonCpuNode) :
    (updNonCpu s i f).cpu_data = s.cpu_data := rfl

theorem updNonCpu_ctx (s : Sys) (i : Nat) (f : NonCpuNode → NonCpuNode) :
    (updNonCpu s i f).ns_ctx = s.ns_ctx := rfl

theorem updNonCpu_at (s : Sys) (i : Nat) (f : NonCpuNode → NonCpuNode) :
    (updNonCpu s i f).non_cpu_pd_nodes i = f (s.non_cpu_pd_nodes i) := by
  simp [updNonCpu]

theorem updNonCpu_same (s : Sys) (i : Nat) (f : NonCpuNode → NonCpuNode)
    (k : Nat) : (updNonCpu s i f).non_cpu_pd_nodes k =
      if k = i then f (s.non_cpu_pd_nodes k) else s.non_cpu_pd_nodes k := rfl

/-- Two states with identical parent links have identical ancestor
chains. -/
theorem psci_ancestor_congr (s s' : Sys)
    (hc : ∀ c, (s'.cpu_pd_nodes c).parent_node = (s.cpu_pd_nodes c).parent_node)
    (hn : ∀ i, (s'.non_cpu_pd_nodes i).parent_node =
      (s.non_cpu_pd_nodes i).parent_node)
    (c : Nat) : ∀ k, psci_ancestor s' c k = psci_ancestor s c k := by
  intro k
  induction k using Nat.strong_induction_on with
  | _ k ih =>
    match k with
    | 0 => rfl
    | 1 => simpa [psci_ancestor] using hc c
    | Nat.succ (Nat.succ m) =>
        have h1 := ih (m + 1) (by omega)
        rw [psci_ancestor, psci_ancestor, h1, hn]

/-- Two states with identical parent links have identical `temp_index`
arrays. -/
theorem temp_index_congr (s s' : Sys)
    (hc : ∀ c, (s'.cpu_pd_nodes c).parent_node = (s.cpu_pd_nodes c).parent_node)
    (hn : ∀ i, (s'.non_cpu_pd_nodes i).parent_node =
      (s.non_cpu_pd_nodes i).parent_node)
    (c j : Nat) : temp_index s' c j = temp_index s c j := by
  unfold temp_index
  rw [psci_ancestor_congr s s' hc hn c (j + 1)]

/-- One step of the inner loop when `temp_index` differs from the
recorded `nodes_idx`: record the new index, write `cpu_start_idx`, then
increment `ncpus`. -/
theorem updateLimitsInner_step_ne (c : Nat) (tmp : Nat → Nat) (f : Nat)
    (ni : Nat → Nat) (s : Sys) (h : tmp f ≠ ni f) :
    updateLimitsInner c tmp (f + 1) ni s =
      updateLimitsInner c tmp f (fun k => if k = f then tmp f else ni k)
        (updNonCpu (updNonCpu s (tmp f) fun n => { n with cpu_start_idx := c })
          (tmp f) fun n => { n with ncpus := n.ncpus + 1 }) := by
  rw [updateLimitsInner, if_pos h]
  congr 1
  simp

/-- One step of the inner loop when `temp_index` matches the recorded
`nodes_idx`: only increment `ncpus`. -/
theorem updateLimitsInner_step_eq (c : Nat) (tmp : Nat → Nat) (f : Nat)
    (ni : Nat → Nat) (s : Sys) (h : ¬ tmp f ≠ ni f) :
    updateLimitsInner c tmp (f + 1) ni s =
      updateLimitsInner c tmp f ni
        (updNonCpu s (ni f) fun n => { n with ncpus := n.ncpus + 1 }) := by
  rw [updateLimitsInner, if_neg h]

/-- `updNonCpu` with a field update that fixes `level`, `parent_node`,
`lock_inited` and `psci_state` preserves those fields everywhere. -/
theorem updNonCpu_fields (s : Sys) (i : Nat) (f : NonCpuNode → NonCpuNode)
    (hf : ∀ n, (f n).level = n.level ∧ (f n).parent_node = n.parent_node ∧
      (f n).lock_inited = n.lock_inited ∧ (f n).psci_state = n.psci_state)
    (k : Nat) :
    ((updNonCpu s i f).non_cpu_pd_nodes k).level = (s.non_cpu_pd_nodes k).level ∧
    ((updNonCpu s i f).non_cpu_pd_nodes k).parent_node =
      (s.non_cpu_pd_nodes k).parent_node ∧
    ((updNonCpu s i f).non_cpu_pd_nodes k).lock_inited =
      (s.non_cpu_pd_nodes k).lock_inited ∧
    ((updNonCpu s i f).non_cpu_pd_nodes k).psci_state =
      (s.non_cpu_pd_nodes k).psci_state := by
  rw [updNonCpu_same]
  split
  · exact hf _
  · exact ⟨rfl, rfl, rfl, rfl⟩

/-- The inner loop of `psci_update_pwrlvl_limits` leaves every field
other than `ncpus` and `cpu_start_idx` untouched. -/
theorem updateLimitsInner_frame (c : Nat) (tmp : Nat → Nat) :
    ∀ (f : Nat) (ni : Nat → Nat) (s : Sys),
      (updateLimitsInner c tmp f ni s).2.cpu_pd_nodes = s.cpu_pd_nodes ∧
      (updateLimitsInner c tmp f ni s).2.cpu_data = s.cpu_data ∧
      (updateLimitsInner c tmp f ni s).2.ns_ctx = s.ns_ctx ∧
      (∀ i, ((updateLimitsInner c tmp f ni s).2.non_cpu_pd_nodes i).level =
          (s.non_cpu_pd_nodes i).level ∧
        ((updateLimitsInner c tmp f ni s).2.non_cpu_pd_nodes i).parent_node =
          (s.non_cpu_pd_nodes i).parent_node ∧
        ((updateLimitsInner c tmp f ni s).2.non_cpu_pd_nodes i).lock_inited =
          (s.non_cpu_pd_nodes i).lock_inited ∧
        ((updateLimitsInner c tmp f ni s).2.non_cpu_pd_nodes i).psci_state =
          (s.non_cpu_pd_nodes i).psci_state) := by
  intro f
  induction f with
  | zero => intro ni s; exact ⟨rfl, rfl, rfl, fun i => ⟨rfl, rfl, rfl, rfl⟩⟩
  | succ f ih =>
      intro ni s
      by_cases h : tmp f ≠ ni f
      · rw [updateLimitsInner_step_ne c tmp f ni s h]
        obtain ⟨h1, h2, h3, h4⟩ := ih _ _
        refine ⟨h1.trans rfl, h2.trans rfl, h3.trans rfl, fun i => ?_⟩
        obtain ⟨g1, g2, g3, g4⟩ := h4 i
        have e2 := updNonCpu_fields
          (updNonCpu s (tmp f) fun n => { n with cpu_start_idx := c }) (tmp f)
          (fun n => { n with ncpus := n.ncpus + 1 })
          (fun n => ⟨rfl, rfl, rfl, rfl⟩) i
        have e1 := updNonCpu_fields s (tmp f)
          (fun n => { n with cpu_start_idx := c })
          (fun n => ⟨rfl, rfl, rfl, rfl⟩) i
        exact ⟨g1.trans (e2.1.trans e1.1), g2.trans (e2.2.1.trans e1.2.1),
          g3.trans (e2.2.2.1.trans e1.2.2.1), g4.trans (e2.2.2.2.trans e1.2.2.2)⟩
      · rw [updateLimitsInner_step_eq c tmp f ni s h]
        obtain ⟨h1, h2, h3, h4⟩ := ih _ _
        refine ⟨h1.trans rfl, h2.trans rfl, h3.trans rfl, fun i => ?_⟩
        obtain ⟨g1, g2, g3, g4⟩ := h4 i
        have e1 := updNonCpu_fields s (ni f)
          (fun n => { n with ncpus := n.ncpus + 1 })
          (fun n => ⟨rfl, rfl, rfl, rfl⟩) i
        exact ⟨g1.trans e1.1, g2.trans e1.2.1, g3.trans e1.2.2.1,
          g4.trans e1.2.2.2⟩

/-- After the inner loop, entry `j < f` of `nodes_idx` holds `tmp j`;
entries at or above `f` are unchanged. -/
theorem updateLimitsInner_nodes_idx (c : Nat) (tmp : Nat → Nat) :
    ∀ (f : Nat) (ni : Nat → Nat) (s : Sys) (j : Nat),
      (updateLimitsInner c tmp f ni s).1 j = if j < f then tmp j else ni j := by
  intro f
  induction f with
  | zero => intro ni s j; simp [updateLimitsInner]
  | succ f ih =>
      intro ni s j
      by_cases h : tmp f ≠ ni f
      · rw [updateLimitsInner_step_ne c tmp f ni s h, ih]
        by_cases hj : j < f
        · simp [hj, Nat.lt_succ_of_lt hj]
        · by_cases hjf : j = f
          · simp [hj, hjf]
          · have hn : ¬ j < f + 1 := by omega
            simp [hj, hjf, hn]
      · rw [updateLimitsInner_step_eq c tmp f ni s h, ih]
        have h' : tmp f = ni f := by
          by_contra hne; exact h hne
        by_cases hj : j < f
        · simp [hj, Nat.lt_succ_of_lt hj]
        · by_cases hjf : j = f
          · have hn : j < f + 1 := by omega
            simp [hj, hjf, hn, h']
          · have hn : ¬ j < f + 1 := by omega
            simp [hj, hjf, hn]

/-- The inner loop increments `ncpus` of node `i` once for every level
`j < f` whose `temp_index` entry is `i` — the increment always lands on
`temp_index[j]`, whether or not `nodes_idx[j]` was just rewritten. -/
theorem updateLimitsInner_ncpus (c : Nat) (tmp : Nat → Nat) :
    ∀ (f : Nat) (ni : Nat → Nat) (s : Sys) (i : Nat),
      ncpusOf (updateLimitsInner c tmp f ni s).2 i =
        ncpusOf s i + ((Finset.range f).filter (fun j => tmp j = i)).card := by
  intro f
  induction f with
  | zero => intro ni s i; simp [updateLimitsInner, ncpusOf]
  | succ f ih =>
      intro ni s i
      have hcard : ((Finset.range (f + 1)).filter (fun j => tmp j = i)).card =
          ((Finset.range f).filter (fun j => tmp j = i)).card +
            (if tmp f = i then 1 else 0) := by
        rw [Finset.range_succ, Finset.filter_insert]
        by_cases h : tmp f = i
        · rw [if_pos h, if_pos h, Finset.card_insert_of_not_mem (by simp)]
        · rw [if_neg h, if_neg h, Nat.add_zero]
      by_cases h : tmp f ≠ ni f
      · rw [updateLimitsInner_step_ne c tmp f ni s h, ih, hcard]
        have hs2 : ncpusOf (updNonCpu
            (updNonCpu s (tmp f) fun n => { n with cpu_start_idx := c })
            (tmp f) fun n => { n with ncpus := n.ncpus + 1 }) i =
            ncpusOf s i + (if tmp f = i then 1 else 0) := by
          unfold ncpusOf
          rw [updNonCpu_same, updNonCpu_same]
          by_cases hi : i = tmp f
          · simp [hi]
          · simp [hi, Ne.symm hi]
        rw [hs2]
        omega
      · have h' : tmp f = ni f := by by_contra hne; exact h hne
        rw [updateLimitsInner_step_eq c tmp f ni s h, ih, hcard]
        have hs2 : ncpusOf (updNonCpu s (ni f)
            fun n => { n with ncpus := n.ncpus + 1 }) i =
            ncpusOf s i + (if tmp f = i then 1 else 0) := by
          unfold ncpusOf
          rw [updNonCpu_same, ← h']
          by_cases hi : i = tmp f
          · simp [hi]
          · simp [hi, Ne.symm hi]
        rw [hs2]
        omega

/-- If no level of this CPU triggers a `cpu_start_idx` write to node `i`,
the inner loop leaves `cpu_start_idx` of `i` unchanged. -/
theorem updateLimitsInner_start_unchanged (c : Nat) (tmp : Nat → Nat) :
    ∀ (f : Nat) (ni : Nat → Nat) (s : Sys) (i : Nat),
      (∀ j, j < f → tmp j = i → tmp j = ni j) →
      startOf (updateLimitsInner c tmp f ni s).2 i = startOf s i := by
  intro f
  induction f with
  | zero => intro ni s i _; rfl
  | succ f ih =>
      intro ni s i hno
      by_cases h : tmp f ≠ ni f
      · have hfi : tmp f ≠ i := fun e => h (hno f (by omega) e)
        rw [updateLimitsInner_step_ne c tmp f ni s h]
        rw [ih _ _ i (fun j hj he => by
          have := hno j (by omega) he
          simpa [show j ≠ f by omega] using this)]
        unfold startOf
        rw [updNonCpu_same, updNonCpu_same]
        have hi : i ≠ tmp f := fun e => hfi e.symm
        simp [hi]
      · rw [updateLimitsInner_step_eq c tmp f ni s h]
        rw [ih _ _ i (fun j hj he => hno j (by omega) he)]
        unfold startOf
        rw [updNonCpu_same]
        split
        · rfl
        · rfl

/-- If some level of this CPU triggers a `cpu_start_idx` write to node
`i`, the inner loop sets `cpu_start_idx` of `i` to this CPU's index. -/
theorem updateLimitsInner_start_written (c : Nat) (tmp : Nat → Nat) :
    ∀ (f : Nat) (ni : Nat → Nat) (s : Sys) (i : Nat),
      (∃ j, j < f ∧ tmp j = i ∧ tmp j ≠ ni j) →
      startOf (updateLimitsInner c tmp f ni s).2 i = c := by
  intro f
  induction f with
  | zero => rintro ni s i ⟨j, hj, -, -⟩; omega
  | succ f ih =>
      rintro ni s i ⟨j, hj, hji, hjni⟩
      by_cases h : tmp f ≠ ni f
      · rw [updateLimitsInner_step_ne c tmp f ni s h]
        by_cases hlt : ∃ j, j < f ∧ tmp j = i ∧ tmp j ≠ ni j
        · obtain ⟨j0, hj0, h1, h2⟩ := hlt
          refine ih _ _ i ⟨j0, hj0, h1, ?_⟩
          simpa [show j0 ≠ f by omega] using h2
        · have hjf : j = f := by
            by_contra hne
            exact hlt ⟨j, by omega, hji, hjni⟩
          subst hjf
          rw [updateLimitsInner_start_unchanged c tmp j _ _ i (fun j0 hj0 he => by
            by_contra hne
            exact hlt ⟨j0, hj0, he, by simpa [show j0 ≠ j by omega] using hne⟩)]
          unfold startOf
          rw [updNonCpu_same, updNonCpu_same]
          simp [hji.symm]
      · have h' : tmp f = ni f := by by_contra hne; exact h hne
        have hjf : j ≠ f := by
          rintro rfl; exact hjni h'
        rw [updateLimitsInner_step_eq c tmp f ni s h]
        exact ih _ _ i ⟨j, by omega, hji, hjni⟩

/-- The inner loop preserves all parent links, hence all ancestor
chains. -/
theorem updateLimitsInner_temp (c : Nat) (tmp : Nat → Nat) (f : Nat)
    (ni : Nat → Nat) (s : Sys) (c' j : Nat) :
    temp_index (updateLimitsInner c tmp f ni s).2 c' j = temp_index s c' j :=
  temp_index_congr s _
    (fun c0 => by rw [(updateLimitsInner_frame c tmp f ni s).1])
    (fun i => ((updateLimitsInner_frame c tmp f ni s).2.2.2 i).2.1) c' j

/-- One step of the outer loop of `psci_update_pwrlvl_limits`. -/
theorem updateLimitsOuter_step (L n c : Nat) (ni : Nat → Nat) (s : Sys) :
    updateLimitsOuter L (n + 1) c ni s =
      updateLimitsOuter L n (c + 1)
        (updateLimitsInner c (temp_index s c) L ni s).1
        (updateLimitsInner c (temp_index s c) L ni s).2 := rfl

/-- The outer loop leaves every field other than `ncpus` and
`cpu_start_idx` untouched. -/
theorem updateLimitsOuter_frame (L : Nat) :
    ∀ (n c : Nat) (ni : Nat → Nat) (s : Sys),
      (updateLimitsOuter L n c ni s).cpu_pd_nodes = s.cpu_pd_nodes ∧
      (updateLimitsOuter L n c ni s).cpu_data = s.cpu_data ∧
      (updateLimitsOuter L n c ni s).ns_ctx = s.ns_ctx ∧
      (∀ i, ((updateLimitsOuter L n c ni s).non_cpu_pd_nodes i).level =
          (s.non_cpu_pd_nodes i).level ∧
        ((updateLimitsOuter L n c ni s).non_cpu_pd_nodes i).parent_node =
          (s.non_cpu_pd_nodes i).parent_node ∧
        ((updateLimitsOuter L n c ni s).non_cpu_pd_nodes i).lock_inited =
          (s.non_cpu_pd_nodes i).lock_inited ∧
        ((updateLimitsOuter L n c ni s).non_cpu_pd_nodes i).psci_state =
          (s.non_cpu_pd_nodes i).psci_state) := by
  intro n
  induction n with
  | zero => intro c ni s; exact ⟨rfl, rfl, rfl, fun i => ⟨rfl, rfl, rfl, rfl⟩⟩
  | succ n ih =>
      intro c ni s
      rw [updateLimitsOuter_step]
      obtain ⟨h1, h2, h3, h4⟩ := ih (c + 1)
        (updateLimitsInner c (temp_index s c) L ni s).1
        (updateLimitsInner c (temp_index s c) L ni s).2
      obtain ⟨g1, g2, g3, g4⟩ := updateLimitsInner_frame c (temp_index s c) L ni s
      refine ⟨h1.trans g1, h2.trans g2, h3.trans g3, fun i => ?_⟩
      obtain ⟨a1, a2, a3, a4⟩ := h4 i
      obtain ⟨b1, b2, b3, b4⟩ := g4 i
      exact ⟨a1.trans b1, a2.trans b2, a3.trans b3, a4.trans b4⟩

/-- The outer loop preserves all ancestor chains. -/
theorem updateLimitsOuter_temp (L n c : Nat) (ni : Nat → Nat) (s : Sys)
    (c' j : Nat) :
    temp_index (updateLimitsOuter L n c ni s) c' j = temp_index s c' j :=
  temp_index_congr s _
    (fun c0 => by rw [(updateLimitsOuter_frame L n c ni s).1])
    (fun i => ((updateLimitsOuter_frame L n c ni s).2.2.2 i).2.1) c' j

/-- `ncpus` accounting over the outer loop: node `i` gains one count for
every pair (CPU of the run, level) whose ancestor is `i`. -/
theorem updateLimitsOuter_ncpus (L : Nat) :
    ∀ (n c : Nat) (ni : Nat → Nat) (s : Sys) (i : Nat),
      ncpusOf (updateLimitsOuter L n c ni s) i =
        ncpusOf s i + (Finset.range n).sum (fun k =>
          ((Finset.range L).filter (fun j => temp_index s (c + k) j = i)).card) := by
  intro n
  induction n with
  | zero => intro c ni s i; simp [updateLimitsOuter]
  | succ n ih =>
      intro c ni s i
      rw [updateLimitsOuter_step, ih, updateLimitsInner_ncpus]
      have hshift : (Finset.range (n + 1)).sum (fun k =>
            ((Finset.range L).filter (fun j => temp_index s (c + k) j = i)).card) =
          (Finset.range n).sum (fun k =>
            ((Finset.range L).filter (fun j => temp_index s (c + 1 + k) j = i)).card) +
          ((Finset.range L).filter (fun j => temp_index s c j = i)).card := by
        rw [Finset.sum_range_succ']
        have e1 : ∀ k, ((Finset.range L).filter
              (fun j => temp_index s (c + (k + 1)) j = i)).card =
            ((Finset.range L).filter
              (fun j => temp_index s (c + 1 + k) j = i)).card :=
          fun k => by rw [show c + (k + 1) = c + 1 + k by omega]
        rw [Finset.sum_congr rfl (fun k _ => e1 k)]
        simp only [Nat.add_zero]
      rw [hshift]
      have hcong : (Finset.range n).sum (fun k =>
            ((Finset.range L).filter (fun j =>
              temp_index (updateLimitsInner c (temp_index s c) L ni s).2
                (c + 1 + k) j = i)).card) =
          (Finset.range n).sum (fun k =>
            ((Finset.range L).filter (fun j =>
              temp_index s (c + 1 + k) j = i)).card) := by
        refine Finset.sum_congr rfl fun k _ => ?_
        congr 1
        refine Finset.filter_congr fun j _ => ?_
        rw [updateLimitsInner_temp]
      rw [hcong]
      omega

/-- Translation of the write-trigger predicate across one outer step:
after processing CPU `c`, the recorded `nodes_idx` is `c`'s ancestor
array, so CPU `c + 1 + k` triggers a write in the remaining run iff CPU
`c + (k + 1)` triggers one in the whole run. -/
theorem assigns_shift (L c k i : Nat) (ni : Nat → Nat) (s : Sys) :
    Assigns (updateLimitsInner c (temp_index s c) L ni s).2 L
        (updateLimitsInner c (temp_index s c) L ni s).1 (c + 1) k i ↔
      Assigns s L ni c (k + 1) i := by
  have ht : ∀ c' j, temp_index (updateLimitsInner c (temp_index s c) L ni s).2 c' j
      = temp_index s c' j := fun c' j => updateLimitsInner_temp c _ L ni s c' j
  have hni : ∀ j, j < L →
      (updateLimitsInner c (temp_index s c) L ni s).1 j = temp_index s c j :=
    fun j hj => by rw [updateLimitsInner_nodes_idx, if_pos hj]
  unfold Assigns
  have harith : c + 1 + k = c + (k + 1) := by omega
  have harith2 : c + (k + 1) - 1 = c + k := by omega
  constructor
  · rintro ⟨j, hj, h1, h2⟩
    rw [ht, harith] at h1
    refine ⟨j, hj, h1, ?_⟩
    rw [if_neg (Nat.succ_ne_zero k), harith2]
    rcases Nat.eq_zero_or_pos k with rfl | hk
    · rw [ht, if_pos rfl, hni j hj, harith] at h2
      simpa using h2
    · rw [ht, if_neg (by omega), ht, harith, harith2] at h2
      exact h2
  · rintro ⟨j, hj, h1, h2⟩
    rw [if_neg (Nat.succ_ne_zero k), harith2] at h2
    refine ⟨j, hj, ?_, ?_⟩
    · rw [ht, harith]; exact h1
    · rcases Nat.eq_zero_or_pos k with rfl | hk
      · rw [ht, if_pos rfl, hni j hj, harith]
        simpa using h2
      · rw [ht, if_neg (by omega), ht, harith, harith2]
        exact h2

/-- If no CPU of the run triggers a `cpu_start_idx` write to node `i`,
the outer loop leaves `cpu_start_idx` of `i` unchanged. -/
theorem updateLimitsOuter_start_unchanged (L : Nat) :
    ∀ (n c : Nat) (ni : Nat → Nat) (s : Sys) (i : Nat),
      (∀ k, k < n → ¬ Assigns s L ni c k i) →
      startOf (updateLimitsOuter L n c ni s) i = startOf s i := by
  intro n
  induction n with
  | zero => intro c ni s i _; rfl
  | succ n ih =>
      intro c ni s i hno
      rw [updateLimitsOuter_step]
      have hrest : ∀ k, k < n →
          ¬ Assigns (updateLimitsInner c (temp_index s c) L ni s).2 L
              (updateLimitsInner c (temp_index s c) L ni s).1 (c + 1) k i :=
        fun k hk ha => hno (k + 1) (by omega) ((assigns_shift L c k i ni s).mp ha)
      rw [ih (c + 1) _ _ i hrest]
      refine updateLimitsInner_start_unchanged c (temp_index s c) L ni s i ?_
      intro j hj hji
      by_contra hne
      exact hno 0 (by omega) ⟨j, hj, by simpa using hji, by
        rw [if_pos rfl]; simpa using hne⟩

/-- If exactly one CPU of the run triggers a `cpu_start_idx` write to
node `i`, the final `cpu_start_idx` of `i` is that CPU's index. -/
theorem updateLimitsOuter_start_unique (L : Nat) :
    ∀ (n c : Nat) (ni : Nat → Nat) (s : Sys) (i k0 : Nat),
      k0 < n → Assigns s L ni c k0 i →
      (∀ k, k < n → Assigns s L ni c k i → k = k0) →
      startOf (updateLimitsOuter L n c ni s) i = c + k0 := by
  intro n
  induction n with
  | zero => intro c ni s i k0 h; omega
  | succ n ih =>
      intro c ni s i k0 hk0 hass huni
      rw [updateLimitsOuter_step]
      rcases Nat.eq_zero_or_pos k0 with rfl | hpos
      · have hrest : ∀ k, k < n →
            ¬ Assigns (updateLimitsInner c (temp_index s c) L ni s).2 L
                (updateLimitsInner c (temp_index s c) L ni s).1 (c + 1) k i :=
          fun k hk ha => by
            have := huni (k + 1) (by omega) ((assigns_shift L c k i ni s).mp ha)
            omega
        rw [updateLimitsOuter_start_unchanged L n (c + 1) _ _ i hrest]
        obtain ⟨j, hj, h1, h2⟩ := hass
        rw [Nat.add_zero] at h1 h2
        rw [if_pos rfl] at h2
        rw [Nat.add_zero]
        exact updateLimitsInner_start_written c (temp_index s c) L ni s i
          ⟨j, hj, h1, h2⟩
      · obtain ⟨k0', rfl⟩ : ∃ k0', k0 = k0' + 1 := ⟨k0 - 1, by omega⟩
        have hres := ih (c + 1)
          (updateLimitsInner c (temp_index s c) L ni s).1
          (updateLimitsInner c (temp_index s c) L ni s).2 i k0'
          (by omega) ((assigns_shift L c k0' i ni s).mpr hass)
          (fun k hk ha => by
            have := huni (k + 1) (by omega) ((assigns_shift L c k i ni s).mp ha)
            omega)
        rw [hres]
        omega

/-- C8: `psci_update_pwrlvl_limits` only ever increments `ncpus` — the
result is exactly the entry value plus the number of (CPU, level) pairs
whose ancestor is the node, so nothing is initialized or reset; a node's
`cpu_start_idx` is written only when some CPU's ancestor at some level
differs from the per-level record `nodes_idx` (which starts at 0 for
every level, so a node at array index 0 whose CPUs form a prefix of the
CPU order is never assigned); and consequently the computed ranges are
correct only when `ncpus` and `cpu_start_idx` are zero on entry: poisoning
node 0 of the example tree with `ncpus = 5, cpu_start_idx = 7` yields
9 and 7 where the true range is 4 and 0. -/
theorem C8_update_limits_only_increments :
    (∀ (cfg : Plat) (s : Sys) (i : Nat),
      ncpusOf (psci_update_pwrlvl_limits cfg s) i =
        ncpusOf s i + (Finset.range cfg.PLATFORM_CORE_COUNT).sum (fun k =>
          ((Finset.range cfg.PLAT_MAX_PWR_LVL).filter
            (fun j => temp_index s k j = i)).card)) ∧
    (∀ (cfg : Plat) (s : Sys) (i : Nat),
      startOf (psci_update_pwrlvl_limits cfg s) i ≠ startOf s i →
      ∃ k, k < cfg.PLATFORM_CORE_COUNT ∧
        Assigns s cfg.PLAT_MAX_PWR_LVL (fun _ => 0) 0 k i) ∧
    (∀ (cfg : Plat) (s : Sys),
      (∀ j, j < cfg.PLAT_MAX_PWR_LVL → ∀ c, c < cfg.PLATFORM_CORE_COUNT →
        0 < c → temp_index s c j = 0 → temp_index s (c - 1) j = 0) →
      startOf (psci_update_pwrlvl_limits cfg s) 0 = startOf s 0) ∧
    (ncpusOf (psci_update_pwrlvl_limits cfg4 poisoned4) 0 = 9 ∧
     startOf (psci_update_pwrlvl_limits cfg4 poisoned4) 0 = 7 ∧
     ncpusOf (psci_update_pwrlvl_limits cfg4 built4) 0 = 4 ∧
     startOf (psci_update_pwrlvl_limits cfg4 built4) 0 = 0) := by
  refine ⟨?_, ?_, ?_, by decide⟩
  · intro cfg s i
    have h := updateLimitsOuter_ncpus cfg.PLAT_MAX_PWR_LVL
      cfg.PLATFORM_CORE_COUNT 0 (fun _ => 0) s i
    simpa [psci_update_pwrlvl_limits] using h
  · intro cfg s i hne
    by_contra hno
    push_neg at hno
    refine hne ?_
    unfold psci_update_pwrlvl_limits
    exact updateLimitsOuter_start_unchanged cfg.PLAT_MAX_PWR_LVL
      cfg.PLATFORM_CORE_COUNT 0 (fun _ => 0) s i
      (fun k hk ha => absurd ha (hno k hk))
  · intro cfg s hpre
    unfold psci_update_pwrlvl_limits
    refine updateLimitsOuter_start_unchanged cfg.PLAT_MAX_PWR_LVL
      cfg.PLATFORM_CORE_COUNT 0 (fun _ => 0) s 0 ?_
    rintro k hk ⟨j, hj, h1, h2⟩
    rw [Nat.zero_add] at h1 h2
    rcases Nat.eq_zero_or_pos k with rfl | hkpos
    · rw [if_pos rfl] at h2
      exact h2 (h1.trans rfl)
    · rw [if_neg (by omega)] at h2
      exact h2 (h1.trans (hpre j hj k hk hkpos h1).symm)

/-- Closed instance of `C8_update_limits_only_increments` (prefix part)
on the example tree: node 0 (the system root, ancestor of CPU 0) keeps
its entry `cpu_start_idx`. -/
theorem C8_update_limits_only_increments_witness :
    startOf (psci_update_pwrlvl_limits cfg4 built4) 0 = startOf built4 0 :=
  C8_update_limits_only_increments.2.2.1 cfg4 built4 (by decide)

theorem sum_arr_shift (arr : Nat → Nat) (pni m : Nat) :
    (Finset.range (m + 1)).sum (fun t => arr (pni + t)) =
      arr pni + (Finset.range m).sum (fun t => arr (pni + 1 + t)) := by
  rw [Finset.sum_range_succ']
  have e1 : ∀ t, arr (pni + (t + 1)) = arr (pni + 1 + t) := fun t => by
    rw [show pni + (t + 1) = pni + 1 + t by omega]
  rw [Finset.sum_congr rfl (fun t _ => e1 t)]
  simp only [Nat.add_zero]
  omega

/-- `psci_init_pwr_domain_node` at a non-CPU level is a single
`psci_non_cpu_pd_nodes` slot update. -/
theorem init_node_nonleaf (idx : Nat) (p lvl : Int)
    (h : PSCI_CPU_PWR_LVL < lvl) (s : Sys) :
    psci_init_pwr_domain_node idx p lvl s =
      updNonCpu s idx fun n =>
        { n with level := lvl, lock_inited := true, parent_node := p } := by
  rw [psci_init_pwr_domain_node, if_pos h]

/-- Pointwise effects of `psci_init_pwr_domain_node` at the CPU level. -/
theorem init_node_leaf (idx : Nat) (p lvl : Int)
    (h : lvl ≤ PSCI_CPU_PWR_LVL) (s : Sys) :
    (psci_init_pwr_domain_node idx p lvl s).non_cpu_pd_nodes =
      s.non_cpu_pd_nodes ∧
    (∀ k, k ≠ idx →
      (psci_init_pwr_domain_node idx p lvl s).cpu_pd_nodes k = s.cpu_pd_nodes k ∧
      (psci_init_pwr_domain_node idx p lvl s).cpu_data k = s.cpu_data k ∧
      (psci_init_pwr_domain_node idx p lvl s).ns_ctx k = s.ns_ctx k) ∧
    ((psci_init_pwr_domain_node idx p lvl s).cpu_pd_nodes idx =
      { parent_node := p, mpidr := -1 } ∧
     (psci_init_pwr_domain_node idx p lvl s).cpu_data idx =
      { psci_state := PowerState.off, power_state := PSCI_INVALID_DATA } ∧
     (psci_init_pwr_domain_node idx p lvl s).ns_ctx idx = some idx) := by
  rw [psci_init_pwr_domain_node, if_neg (not_lt.mpr h)]
  refine ⟨rfl, fun k hk => ⟨?_, ?_, ?_⟩, ?_, ?_, ?_⟩
  · simp [updCpu, updData, updCtx, hk]
  · simp [updCpu, updData, updCtx, hk]
  · simp [updCpu, updData, updCtx, hk]
  · simp [updCpu, updData, updCtx]
  · simp [updCpu, updData, updCtx]
  · simp [updCpu, updData, updCtx]

/-- `initChildren` at a non-CPU level: the slots `[ni, ni + nc)` of
`psci_non_cpu_pd_nodes` get level/lock/parent set, everything else is
unchanged. -/
theorem initChildren_nonleaf (p lvl : Int) (h : PSCI_CPU_PWR_LVL < lvl) :
    ∀ (nc ni : Nat) (s : Sys),
      ((initChildren ni nc p lvl s).cpu_pd_nodes = s.cpu_pd_nodes ∧
       (initChildren ni nc p lvl s).cpu_data = s.cpu_data ∧
       (initChildren ni nc p lvl s).ns_ctx = s.ns_ctx) ∧
      (∀ k, k < ni ∨ ni + nc ≤ k →
        (initChildren ni nc p lvl s).non_cpu_pd_nodes k = s.non_cpu_pd_nodes k) ∧
      (∀ k, ni ≤ k → k < ni + nc →
        (initChildren ni nc p lvl s).non_cpu_pd_nodes k =
          { s.non_cpu_pd_nodes k with
              level := lvl, lock_inited := true, parent_node := p }) := by
  intro nc
  induction nc with
  | zero =>
      intro ni s
      exact ⟨⟨rfl, rfl, rfl⟩, fun k _ => rfl, fun k h1 h2 => by omega⟩
  | succ m ih =>
      intro ni s
      rw [initChildren, init_node_nonleaf _ _ _ h]
      obtain ⟨⟨f1, f2, f3⟩, funch, fin⟩ := ih (ni + 1)
        (updNonCpu s ni fun n =>
          { n with level := lvl, lock_inited := true, parent_node := p })
      refine ⟨⟨f1.trans rfl, f2.trans rfl, f3.trans rfl⟩, ?_, ?_⟩
      · intro k hk
        have hk' : k < ni + 1 ∨ ni + 1 + m ≤ k := by omega
        rw [funch k hk', updNonCpu_same, if_neg (by omega)]
      · intro k h1 h2
        by_cases hk : k = ni
        · subst hk
          rw [funch k (Or.inl (by omega)), updNonCpu_same, if_pos rfl]
        · rw [fin k (by omega) (by omega), updNonCpu_same, if_neg hk]

/-- `initChildren` at the CPU level: the slots `[ni, ni + nc)` of the
CPU-side arrays are initialized, everything else is unchanged. -/
theorem initChildren_leaf (p lvl : Int) (h : lvl ≤ PSCI_CPU_PWR_LVL) :
    ∀ (nc ni : Nat) (s : Sys),
      ((initChildren ni nc p lvl s).non_cpu_pd_nodes = s.non_cpu_pd_nodes) ∧
      (∀ k, k < ni ∨ ni + nc ≤ k →
        (initChildren ni nc p lvl s).cpu_pd_nodes k = s.cpu_pd_nodes k ∧
        (initChildren ni nc p lvl s).cpu_data k = s.cpu_data k ∧
        (initChildren ni nc p lvl s).ns_ctx k = s.ns_ctx k) ∧
      (∀ k, ni ≤ k → k < ni + nc →
        (initChildren ni nc p lvl s).cpu_pd_nodes k =
          { parent_node := p, mpidr := -1 } ∧
        (initChildren ni nc p lvl s).cpu_data k =
          { psci_state := PowerState.off, power_state := PSCI_INVALID_DATA } ∧
        (initChildren ni nc p lvl s).ns_ctx k = some k) := by
  intro nc
  induction nc with
  | zero =>
      intro ni s
      exact ⟨rfl, fun k _ => ⟨rfl, rfl, rfl⟩, fun k h1 h2 => by omega⟩
  | succ m ih =>
      intro ni s
      rw [initChildren]
      obtain ⟨g1, g2, g3⟩ := init_node_leaf ni p lvl h s
      obtain ⟨f1, funch, fin⟩ := ih (ni + 1) (psci_init_pwr_domain_node ni p lvl s)
      refine ⟨f1.trans g1, ?_, ?_⟩
      · intro k hk
        have hk' : k < ni + 1 ∨ ni + 1 + m ≤ k := by omega
        obtain ⟨a1, a2, a3⟩ := funch k hk'
        obtain ⟨b1, b2, b3⟩ := g2 k (by omega)
        exact ⟨a1.trans b1, a2.trans b2, a3.trans b3⟩
      · intro k h1 h2
        by_cases hk : k = ni
        · subst hk
          obtain ⟨a1, a2, a3⟩ := funch k (Or.inl (by omega))
          exact ⟨a1.trans g3.1, a2.trans g3.2.1, a3.trans g3.2.2⟩
        · exact fin k (by omega) (by omega)

/-- The per-parent loop at the CPU level: arithmetic of the cursors, the
stale-`j` behaviour for an empty run, CPU slots `[ni, ni')` initialized,
lower CPU slots and all of `psci_non_cpu_pd_nodes` untouched. -/
theorem doParentsLoop_leaf (cfg : Plat) (arr : Nat → Nat) (lvl : Int)
    (hlvl : lvl ≤ PSCI_CPU_PWR_LVL) :
    ∀ (r pni ni acc j : Nat) (s s' : Sys) (ni' acc' pni' j' : Nat),
      doParentsLoop cfg arr lvl r pni ni acc j s =
        some (s', ni', acc', pni', j') →
      ni' = ni + (Finset.range r).sum (fun t => arr (pni + t)) ∧
      acc' = acc + (Finset.range r).sum (fun t => arr (pni + t)) ∧
      pni' = pni + r ∧
      (0 < r → j' = ni') ∧
      (r = 0 → j' = j ∧ s' = s) ∧
      s'.non_cpu_pd_nodes = s.non_cpu_pd_nodes ∧
      (∀ k, k < ni →
        s'.cpu_pd_nodes k = s.cpu_pd_nodes k ∧
        s'.cpu_data k = s.cpu_data k ∧
        s'.ns_ctx k = s.ns_ctx k) ∧
      (∀ k, ni ≤ k → k < ni' → cpuInit s' k) := by
  intro r
  induction r with
  | zero =>
      intro pni ni acc j s s' ni' acc' pni' j' h
      rw [doParentsLoop] at h
      simp only [Option.some.injEq, Prod.mk.injEq] at h
      obtain ⟨rfl, rfl, rfl, rfl, rfl⟩ := h
      refine ⟨by simp, by simp, by simp, by omega,
        fun _ => ⟨rfl, rfl⟩, rfl, fun k _ => ⟨rfl, rfl, rfl⟩,
        fun k h1 h2 => ?_⟩
      simp only [Finset.range_zero, Finset.sum_empty, Nat.add_zero] at h2
      omega
  | succ m ih =>
      intro pni ni acc j s s' ni' acc' pni' j' h
      rw [doParentsLoop] at h
      by_cases hcap : pni ≤ cfg.PSCI_NUM_PWR_DOMAINS - cfg.PLATFORM_CORE_COUNT
      · rw [if_pos hcap] at h
        replace h : doParentsLoop cfg arr lvl m (pni + 1) (ni + arr pni)
            (acc + arr pni) (ni + arr pni)
            (initChildren ni (arr pni) ((pni : Int) - 1) lvl s) =
            some (s', ni', acc', pni', j') := h
        obtain ⟨h1, h2, h3, h4, h5, h6, h7, h8⟩ := ih (pni + 1) (ni + arr pni)
          (acc + arr pni) (ni + arr pni) _ s' ni' acc' pni' j' h
        obtain ⟨g1, g2, g3⟩ :=
          initChildren_leaf ((pni : Int) - 1) lvl hlvl (arr pni) ni s
        refine ⟨?_, ?_, by omega, ?_, by omega, h6.trans g1, ?_, ?_⟩
        · rw [h1, sum_arr_shift]; omega
        · rw [h2, sum_arr_shift]; omega
        · intro _
          rcases Nat.eq_zero_or_pos m with rfl | hm
          · obtain ⟨hj, -⟩ := h5 rfl
            rw [hj, h1]
            simp
          · exact h4 hm
        · intro k hk
          obtain ⟨a1, a2, a3⟩ := h7 k (by omega)
          obtain ⟨b1, b2, b3⟩ := g2 k (by omega)
          exact ⟨a1.trans b1, a2.trans b2, a3.trans b3⟩
        · intro k hk1 hk2
          by_cases hin : k < ni + arr pni
          · obtain ⟨a1, a2, a3⟩ := h7 k hin
            obtain ⟨b1, b2, b3⟩ := g3 k hk1 hin
            unfold cpuInit
            exact ⟨by rw [a1, b1], by rw [a2, b2], by rw [a2, b2],
              by rw [a3, b3]⟩
          · exact h8 k (by omega) hk2
      · rw [if_neg hcap] at h
        exact absurd h (by simp)

/-- The per-parent loop at a non-CPU level: arithmetic of the cursors,
writes confined to `psci_non_cpu_pd_nodes[ni, ni')`, CPU-side arrays
untouched, and `ncpus`, `cpu_start_idx`, `psci_state` preserved on every
slot. -/
theorem doParentsLoop_nonleaf (cfg : Plat) (arr : Nat → Nat) (lvl : Int)
    (hlvl : PSCI_CPU_PWR_LVL < lvl) :
    ∀ (r pni ni acc j : Nat) (s s' : Sys) (ni' acc' pni' j' : Nat),
      doParentsLoop cfg arr lvl r pni ni acc j s =
        some (s', ni', acc', pni', j') →
      ni' = ni + (Finset.range r).sum (fun t => arr (pni + t)) ∧
      acc' = acc + (Finset.range r).sum (fun t => arr (pni + t)) ∧
      pni' = pni + r ∧
      (0 < r → j' = ni') ∧
      (r = 0 → j' = j ∧ s' = s) ∧
      (s'.cpu_pd_nodes = s.cpu_pd_nodes ∧
       s'.cpu_data = s.cpu_data ∧
       s'.ns_ctx = s.ns_ctx) ∧
      (∀ k, k < ni → s'.non_cpu_pd_nodes k = s.non_cpu_pd_nodes k) ∧
      (∀ k, ((s'.non_cpu_pd_nodes k).ncpus = (s.non_cpu_pd_nodes k).ncpus ∧
        (s'.non_cpu_pd_nodes k).cpu_start_idx =
          (s.non_cpu_pd_nodes k).cpu_start_idx ∧
        (s'.non_cpu_pd_nodes k).psci_state =
          (s.non_cpu_pd_nodes k).psci_state)) := by
  intro r
  induction r with
  | zero =>
      intro pni ni acc j s s' ni' acc' pni' j' h
      rw [doParentsLoop] at h
      simp only [Option.some.injEq, Prod.mk.injEq] at h
      obtain ⟨rfl, rfl, rfl, rfl, rfl⟩ := h
      exact ⟨by simp, by simp, by simp, by omega, fun _ => ⟨rfl, rfl⟩,
        ⟨rfl, rfl, rfl⟩, fun k _ => rfl, fun k => ⟨rfl, rfl, rfl⟩⟩
  | succ m ih =>
      intro pni ni acc j s s' ni' acc' pni' j' h
      rw [doParentsLoop] at h
      by_cases hcap : pni ≤ cfg.PSCI_NUM_PWR_DOMAINS - cfg.PLATFORM_CORE_COUNT
      · rw [if_pos hcap] at h
        replace h : doParentsLoop cfg arr lvl m (pni + 1) (ni + arr pni)
            (acc + arr pni) (ni + arr pni)
            (initChildren ni (arr pni) ((pni : Int) - 1) lvl s) =
            some (s', ni', acc', pni', j') := h
        obtain ⟨h1, h2, h3, h4, h5, h6, h7, h8⟩ := ih (pni + 1) (ni + arr pni)
          (acc + arr pni) (ni + arr pni) _ s' ni' acc' pni' j' h
        obtain ⟨⟨g1, g2, g3⟩, gunch, gin⟩ :=
          initChildren_nonleaf ((pni : Int) - 1) lvl hlvl (arr pni) ni s
        refine ⟨?_, ?_, by omega, ?_, by omega,
          ⟨h6.1.trans g1, h6.2.1.trans g2, h6.2.2.trans g3⟩, ?_, ?_⟩
        · rw [h1, sum_arr_shift]; omega
        · rw [h2, sum_arr_shift]; omega
        · intro _
          rcases Nat.eq_zero_or_pos m with rfl | hm
          · obtain ⟨hj, -⟩ := h5 rfl
            rw [hj, h1]
            simp
          · exact h4 hm
        · intro k hk
          exact (h7 k (by omega)).trans (gunch k (Or.inl hk))
        · intro k
          obtain ⟨a1, a2, a3⟩ := h8 k
          by_cases hin : ni ≤ k ∧ k < ni + arr pni
          · have hg := gin k hin.1 hin.2
            exact ⟨by rw [a1, hg], by rw [a2, hg], by rw [a3, hg]⟩
          · have hout : k < ni ∨ ni + arr pni ≤ k := by omega
            have hg := gunch k hout
            exact ⟨by rw [a1, hg], by rw [a2, hg], by rw [a3, hg]⟩
      · rw [if_neg hcap] at h
        exact absurd h (by simp)

theorem cpu_lvl_cast_le (n : Nat) (h : n = 0) :
    ((n : Int)) ≤ PSCI_CPU_PWR_LVL := by
  subst h; simp [PSCI_CPU_PWR_LVL]

theorem cpu_lvl_cast_lt (l : Nat) : PSCI_CPU_PWR_LVL < ((l + 1 : Nat) : Int) := by
  unfold PSCI_CPU_PWR_LVL
  exact_mod_cast Nat.succ_pos l

/-- The CPU-level iteration of the `while` loop never touches
`psci_non_cpu_pd_nodes`. -/
theorem treeLoop_lvl0 (cfg : Plat) (arr : Nat → Nat) (num pni ni j : Nat)
    (s s' : Sys) (j' : Nat)
    (h : treeLoop cfg arr 0 num pni ni j s = some (s', j')) :
    s'.non_cpu_pd_nodes = s.non_cpu_pd_nodes := by
  rw [treeLoop] at h
  split at h
  · exact absurd h (by simp)
  · rename_i s1 ni1 acc1 pni1 j1 heq
    simp only [Option.some.injEq, Prod.mk.injEq] at h
    obtain ⟨rfl, rfl⟩ := h
    exact (doParentsLoop_leaf cfg arr _ (cpu_lvl_cast_le 0 rfl) num pni ni 0 j
      s _ _ _ _ _ heq).2.2.2.2.2.1

/-- The remaining levels of the `while` loop never modify
`psci_non_cpu_pd_nodes` slots below the current allocation cursor. -/
theorem treeLoop_nonCpu_lower (cfg : Plat) (arr : Nat → Nat) :
    ∀ (lvl num pni ni j : Nat) (s s' : Sys) (j' : Nat),
      treeLoop cfg arr lvl num pni ni j s = some (s', j') →
      ∀ k, k < ni → s'.non_cpu_pd_nodes k = s.non_cpu_pd_nodes k := by
  intro lvl
  induction lvl with
  | zero =>
      intro num pni ni j s s' j' h k _
      rw [treeLoop_lvl0 cfg arr num pni ni j s s' j' h]
  | succ l ih =>
      intro num pni ni j s s' j' h k hk
      rw [treeLoop] at h
      split at h
      · exact absurd h (by simp)
      · rename_i s1 ni1 acc1 pni1 j1 heq
        obtain ⟨e1, -, -, -, -, -, e7, -⟩ :=
          doParentsLoop_nonleaf cfg arr _ (cpu_lvl_cast_lt l) num pni ni 0 j
            s _ _ _ _ _ heq
        have hni1 : ni ≤ ni1 := by omega
        rcases Nat.eq_zero_or_pos l with rfl | hl
        · have := treeLoop_lvl0 cfg arr acc1 pni1 0 j1 s1 s' j' (by simpa using h)
          rw [this]
          exact e7 k hk
        · have hif : (if l = 0 then 0 else ni1) = ni1 := by
            rw [if_neg (by omega)]
          rw [hif] at h
          rw [ih acc1 pni1 ni1 j1 s1 s' j' h k (by omega)]
          exact e7 k hk

/-- The `while` loop preserves `ncpus`, `cpu_start_idx` and `psci_state`
of every `psci_non_cpu_pd_nodes` slot. -/
theorem treeLoop_preserves (cfg : Plat) (arr : Nat → Nat) :
    ∀ (lvl num pni ni j : Nat) (s s' : Sys) (j' : Nat),
      treeLoop cfg arr lvl num pni ni j s = some (s', j') →
      ∀ k, (s'.non_cpu_pd_nodes k).ncpus = (s.non_cpu_pd_nodes k).ncpus ∧
        (s'.non_cpu_pd_nodes k).cpu_start_idx =
          (s.non_cpu_pd_nodes k).cpu_start_idx ∧
        (s'.non_cpu_pd_nodes k).psci_state =
          (s.non_cpu_pd_nodes k).psci_state := by
  intro lvl
  induction lvl with
  | zero =>
      intro num pni ni j s s' j' h k
      rw [treeLoop_lvl0 cfg arr num pni ni j s s' j' h]
      exact ⟨rfl, rfl, rfl⟩
  | succ l ih =>
      intro num pni ni j s s' j' h k
      rw [treeLoop] at h
      split at h
      · exact absurd h (by simp)
      · rename_i s1 ni1 acc1 pni1 j1 heq
        obtain ⟨-, -, -, -, -, -, -, e8⟩ :=
          doParentsLoop_nonleaf cfg arr _ (cpu_lvl_cast_lt l) num pni ni 0 j
            s _ _ _ _ _ heq
        obtain ⟨a1, a2, a3⟩ := ih acc1 pni1 _ j1 s1 s' j' h k
        obtain ⟨b1, b2, b3⟩ := e8 k
        exact ⟨a1.trans b1, a2.trans b2, a3.trans b3⟩

/-- The widths invariant: started at the tier boundaries given by
`descWidths`, the `while` loop ends with `j'` equal to the decoded leaf
count and with CPU slots `[0, j')` initialized — provided the decoded
leaf count is positive (so the CPU level iterates at least once and `j`
is not stale). -/
theorem treeLoop_leaf_init (cfg : Plat) (arr : Nat → Nat) :
    ∀ (lvl k ni j : Nat) (s s' : Sys) (j' : Nat),
      (lvl = 0 → ni = 0) →
      0 < (descWidths arr (k + lvl + 1)).2 →
      treeLoop cfg arr lvl (descWidths arr k).2 (descWidths arr k).1 ni j s =
        some (s', j') →
      j' = (descWidths arr (k + lvl + 1)).2 ∧
      ∀ c, c < j' → cpuInit s' c := by
  intro lvl
  induction lvl with
  | zero =>
      intro k ni j s s' j' hni hpos h
      have hni0 := hni rfl
      subst hni0
      rw [treeLoop] at h
      split at h
      · exact absurd h (by simp)
      · rename_i s1 ni1 acc1 pni1 j1 heq
        simp only [Option.some.injEq, Prod.mk.injEq] at h
        obtain ⟨rfl, rfl⟩ := h
        obtain ⟨e1, -, -, e4, -, -, -, e8⟩ :=
          doParentsLoop_leaf cfg arr _ (cpu_lvl_cast_le 0 rfl)
            (descWidths arr k).2 (descWidths arr k).1 0 0 j s _ _ _ _ _ heq
        have hni1 : ni1 = (descWidths arr (k + 1)).2 := by
          rw [e1, descWidths]
          simp
        have hwpos : 0 < (descWidths arr k).2 := by
          by_contra h0
          have hz : (descWidths arr k).2 = 0 := by omega
          rw [Nat.add_zero] at hpos
          rw [descWidths] at hpos
          rw [hz] at hpos
          simp at hpos
        have hj1 : j1 = ni1 := e4 hwpos
        rw [Nat.add_zero]
        refine ⟨hj1.trans hni1, fun c hc => ?_⟩
        exact e8 c (by omega) (by omega)
  | succ l ih =>
      intro k ni j s s' j' _ hpos h
      rw [treeLoop] at h
      split at h
      · exact absurd h (by simp)
      · rename_i s1 ni1 acc1 pni1 j1 heq
        obtain ⟨-, e2, e3, -, -, -, -, -⟩ :=
          doParentsLoop_nonleaf cfg arr _ (cpu_lvl_cast_lt l)
            (descWidths arr k).2 (descWidths arr k).1 ni 0 j s _ _ _ _ _ heq
        have hacc : acc1 = (descWidths arr (k + 1)).2 := by
          rw [e2, descWidths]
          simp
        have hpni : pni1 = (descWidths arr (k + 1)).1 := by
          rw [e3, descWidths]
        have hpos' : 0 < (descWidths arr (k + 1 + l + 1)).2 := by
          rw [show k + 1 + l + 1 = k + (l + 1) + 1 by omega]
          exact hpos
        rw [hacc, hpni] at h
        obtain ⟨r1, r2⟩ := ih (k + 1) (if l = 0 then 0 else ni1) j1 s1 s' j'
          (fun hl => by rw [hl]; simp) hpos' h
        refine ⟨?_, r2⟩
        rw [r1, show k + 1 + l + 1 = k + (l + 1) + 1 by omega]

/-- A successful `populate_power_domain_tree` run preserves `ncpus`,
`cpu_start_idx` and `psci_state` of every `psci_non_cpu_pd_nodes`
slot. -/
theorem populate_preserves (cfg : Plat) (arr : Nat → Nat) (L : Nat)
    (s s1 : Sys) (h : populate_power_domain_tree cfg arr L s = some s1) :
    ∀ k, (s1.non_cpu_pd_nodes k).ncpus = (s.non_cpu_pd_nodes k).ncpus ∧
      (s1.non_cpu_pd_nodes k).cpu_start_idx =
        (s.non_cpu_pd_nodes k).cpu_start_idx ∧
      (s1.non_cpu_pd_nodes k).psci_state =
        (s.non_cpu_pd_nodes k).psci_state := by
  unfold populate_power_domain_tree at h
  split at h
  · exact absurd h (by simp)
  · rename_i s' j heq
    split at h
    · have hs : s' = s1 := by injection h
      subst hs
      exact treeLoop_preserves cfg arr L 1 0 0 0 s s' j heq
    · exact absurd h (by simp)

/-- On a valid description (decoded leaf count equal to the positive
platform CPU count), a successful `populate_power_domain_tree` run
leaves every CPU slot `0 ≤ c < PLATFORM_CORE_COUNT` of the (separately
indexed) CPU arrays initialized. -/
theorem populate_leaves (cfg : Plat) (arr : Nat → Nat) (L : Nat) (s s1 : Sys)
    (hW : leafCount arr L = cfg.PLATFORM_CORE_COUNT)
    (hpos : 0 < cfg.PLATFORM_CORE_COUNT)
    (h : populate_power_domain_tree cfg arr L s = some s1) :
    ∀ c, c < cfg.PLATFORM_CORE_COUNT → cpuInit s1 c := by
  unfold populate_power_domain_tree at h
  split at h
  · exact absurd h (by simp)
  · rename_i s' j heq
    split at h
    · rename_i hj
      have hs : s' = s1 := by injection h
      subst hs
      replace heq : treeLoop cfg arr L (descWidths arr 0).2
          (descWidths arr 0).1 0 0 s = some (s', j) := heq
      have hpos' : 0 < (descWidths arr (0 + L + 1)).2 := by
        have e : (descWidths arr (0 + L + 1)).2 = leafCount arr L := by
          rw [leafCount, Nat.zero_add]
        rw [e, hW]
        exact hpos
      obtain ⟨-, hc⟩ := treeLoop_leaf_init cfg arr L 0 0 0 s s' j
        (fun _ => rfl) hpos' heq
      intro c hcount
      exact hc c (by omega)
    · exact absurd h (by simp)

/-- After a successful `populate_power_domain_tree` run with at least one
non-CPU level, the root slots `[0, arr 0)` carry parent `-1`, level
`num_levels` and an initialized lock. -/
theorem populate_roots (cfg : Plat) (arr : Nat → Nat) (L : Nat) (s s1 : Sys)
    (hL : 0 < L) (h : populate_power_domain_tree cfg arr L s = some s1) :
    ∀ i, i < arr 0 → (s1.non_cpu_pd_nodes i).parent_node = -1 ∧
      (s1.non_cpu_pd_nodes i).level = (L : Int) ∧
      (s1.non_cpu_pd_nodes i).lock_inited = true := by
  obtain ⟨l, rfl⟩ : ∃ l, L = l + 1 := ⟨L - 1, by omega⟩
  unfold populate_power_domain_tree at h
  split at h
  · exact absurd h (by simp)
  · rename_i s' j heq
    split at h
    · have hs : s' = s1 := by injection h
      subst hs
      rw [treeLoop] at heq
      split at heq
      · exact absurd heq (by simp)
      · rename_i sA niA accA pniA jA heq2
        rw [doParentsLoop, if_pos (Nat.zero_le _)] at heq2
        replace heq2 : doParentsLoop cfg arr ((l + 1 : Nat) : Int) 0 1
            (0 + arr 0) (0 + arr 0) (0 + arr 0)
            (initChildren 0 (arr 0) (((0 : Nat) : Int) - 1)
              ((l + 1 : Nat) : Int) s) =
            some (sA, niA, accA, pniA, jA) := heq2
        rw [doParentsLoop] at heq2
        simp only [Option.some.injEq, Prod.mk.injEq] at heq2
        obtain ⟨hsA, hniA, -, -, -⟩ := heq2
        intro i hi
        obtain ⟨-, -, gin⟩ :=
          initChildren_nonleaf (((0 : Nat) : Int) - 1) ((l + 1 : Nat) : Int)
            (cpu_lvl_cast_lt l) (arr 0) 0 s
        have hroot : sA.non_cpu_pd_nodes i =
            { s.non_cpu_pd_nodes i with
                level := ((l + 1 : Nat) : Int), lock_inited := true,
                parent_node := ((0 : Nat) : Int) - 1 } := by
          rw [← hsA]
          exact gin i (by omega) (by omega)
        have hsame : s'.non_cpu_pd_nodes i = sA.non_cpu_pd_nodes i := by
          rcases Nat.eq_zero_or_pos l with rfl | hl
          · rw [treeLoop_lvl0 cfg arr accA pniA
              (if 0 = 0 then 0 else niA) jA sA s' j heq]
          · have hif : (if l = 0 then 0 else niA) = niA := by
              rw [if_neg (by omega)]
            rw [hif] at heq
            exact treeLoop_nonCpu_lower cfg arr l accA pniA niA jA sA s' j
              heq i (by omega)
        rw [hsame, hroot]
        refine ⟨by norm_num, rfl, rfl⟩
    · exact absurd h (by simp)

theorem updNonCpu_parent (s : Sys) (i : Nat) (f : NonCpuNode → NonCpuNode)
    (hf : ∀ n, (f n).parent_node = n.parent_node) (k : Nat) :
    ((updNonCpu s i f).non_cpu_pd_nodes k).parent_node =
      (s.non_cpu_pd_nodes k).parent_node := by
  rw [updNonCpu_same]
  split
  · exact hf _
  · rfl

theorem updCpu_same (s : Sys) (i : Nat) (f : CpuNode → CpuNode) (k : Nat) :
    (updCpu s i f).cpu_pd_nodes k =
      if k = i then f (s.cpu_pd_nodes k) else s.cpu_pd_nodes k := rfl

theorem updData_same (s : Sys) (i : Nat) (f : SvcCpuData → SvcCpuData)
    (k : Nat) :
    (updData s i f).cpu_data k =
      if k = i then f (s.cpu_data k) else s.cpu_data k := rfl

/-- `markAncestors` only touches the `psci_state` of non-CPU slots, and
only ever writes the given state. -/
theorem markAncestors_frame (c : Nat) (st : PowerState) :
    ∀ (e : Nat) (s : Sys),
      (markAncestors c st e s).cpu_pd_nodes = s.cpu_pd_nodes ∧
      (markAncestors c st e s).cpu_data = s.cpu_data ∧
      (markAncestors c st e s).ns_ctx = s.ns_ctx ∧
      (∀ i, ((markAncestors c st e s).non_cpu_pd_nodes i).level =
          (s.non_cpu_pd_nodes i).level ∧
        ((markAncestors c st e s).non_cpu_pd_nodes i).parent_node =
          (s.non_cpu_pd_nodes i).parent_node ∧
        ((markAncestors c st e s).non_cpu_pd_nodes i).lock_inited =
          (s.non_cpu_pd_nodes i).lock_inited ∧
        ((markAncestors c st e s).non_cpu_pd_nodes i).ncpus =
          (s.non_cpu_pd_nodes i).ncpus ∧
        ((markAncestors c st e s).non_cpu_pd_nodes i).cpu_start_idx =
          (s.non_cpu_pd_nodes i).cpu_start_idx) ∧
      (∀ i, ((markAncestors c st e s).non_cpu_pd_nodes i).psci_state = st ∨
        ((markAncestors c st e s).non_cpu_pd_nodes i).psci_state =
          (s.non_cpu_pd_nodes i).psci_state) := by
  intro e
  induction e with
  | zero =>
      intro s
      exact ⟨rfl, rfl, rfl, fun i => ⟨rfl, rfl, rfl, rfl, rfl⟩,
        fun i => Or.inr rfl⟩
  | succ e ih =>
      intro s
      rw [markAncestors]
      obtain ⟨h1, h2, h3, h4, h5⟩ := ih
        (updNonCpu s (temp_index s c e) fun n => { n with psci_state := st })
      refine ⟨h1.trans rfl, h2.trans rfl, h3.trans rfl, fun i => ?_, fun i => ?_⟩
      · obtain ⟨a1, a2, a3, a4, a5⟩ := h4 i
        refine ⟨a1.trans ?_, a2.trans ?_, a3.trans ?_, a4.trans ?_,
          a5.trans ?_⟩ <;>
          · rw [updNonCpu_same]
            split <;> rfl
      · rcases h5 i with hst | hkeep
        · exact Or.inl hst
        · rw [hkeep, updNonCpu_same]
          split
          · exact Or.inl rfl
          · exact Or.inr rfl

/-- Every ancestor of `c` at a level below `e` is marked with the given
state by `markAncestors`. -/
theorem markAncestors_on (c : Nat) (st : PowerState) :
    ∀ (e : Nat) (s : Sys) (l : Nat), l < e →
      ((markAncestors c st e s).non_cpu_pd_nodes
        (temp_index s c l)).psci_state = st := by
  intro e
  induction e with
  | zero => intro s l h; omega
  | succ e ih =>
      intro s l hl
      rw [markAncestors]
      have htemp : ∀ c' j, temp_index
          (updNonCpu s (temp_index s c e) fun n => { n with psci_state := st })
          c' j = temp_index s c' j :=
        temp_index_congr s _ (fun _ => rfl)
          (fun i => updNonCpu_parent s (temp_index s c e)
            (fun n => { n with psci_state := st }) (fun n => rfl) i)
      by_cases hle : l = e
      · subst hle
        rcases (markAncestors_frame c st l _).2.2.2.2 (temp_index s c l) with
          hst | horig
        · exact hst
        · rw [horig, updNonCpu_same, if_pos rfl]
      · have hlt : l < e := by omega
        have hres := ih
          (updNonCpu s (temp_index s c e) fun n => { n with psci_state := st })
          l hlt
        rw [htemp c l] at hres
        exact hres

/-- C9: descending to the CPU level resets the allocation index to 0, so
for every valid topology description (decoded leaf count equal to the
positive platform CPU count) the CPU leaves of a successful build occupy
exactly indices `0 .. PLATFORM_CORE_COUNT - 1` of the separately indexed
per-CPU arrays — invalid mpidr, state OFF, invalid suspend context,
context association by the same index — independent of how many non-leaf
nodes were allocated in `psci_non_cpu_pd_nodes`. -/
theorem C9_leaf_indices_reset (cfg : Plat) (arr : Nat → Nat) (s s1 : Sys)
    (hW : leafCount arr cfg.PLAT_MAX_PWR_LVL = cfg.PLATFORM_CORE_COUNT)
    (hpos : 0 < cfg.PLATFORM_CORE_COUNT)
    (h : populate_power_domain_tree cfg arr cfg.PLAT_MAX_PWR_LVL s = some s1) :
    ∀ c, c < cfg.PLATFORM_CORE_COUNT →
      (s1.cpu_pd_nodes c).mpidr = -1 ∧
      (s1.cpu_data c).psci_state = PowerState.off ∧
      (s1.cpu_data c).power_state = PSCI_INVALID_DATA ∧
      s1.ns_ctx c = some c := by
  intro c hc
  exact populate_leaves cfg arr cfg.PLAT_MAX_PWR_LVL s s1 hW hpos h c hc

/-- Closed instance of `C9_leaf_indices_reset` on the example platform:
CPU leaf 3 sits at index 3 of the CPU arrays even though three non-leaf
nodes were allocated. -/
theorem C9_leaf_indices_reset_witness :
    (built4.cpu_pd_nodes 3).mpidr = -1 ∧
    (built4.cpu_data 3).psci_state = PowerState.off ∧
    (built4.cpu_data 3).power_state = PSCI_INVALID_DATA ∧
    built4.ns_ctx 3 = some 3 :=
  C9_leaf_indices_reset cfg4 desc4 initSys built4 (by decide) (by decide)
    (by rfl) 3 (by decide)

/-- C5: after `psci_setup` completes, the booting CPU's leaf and its
ancestor at every level `1 .. PLAT_MAX_PWR_LVL` report power state ON,
and every other CPU leaf reports OFF.  (Indices `l < PLAT_MAX_PWR_LVL`
of `temp_index` are the ancestors at levels `l + 1`.) -/
theorem C5_boot_path_on (cfg : Plat) (arr : Nat → Nat) (boot : Nat)
    (mp : Int) (ops : Option PlatPmOps) (s0 s' : Sys) (caps : Nat) (r : Int)
    (hW : leafCount arr cfg.PLAT_MAX_PWR_LVL = cfg.PLATFORM_CORE_COUNT)
    (hpos : 0 < cfg.PLATFORM_CORE_COUNT)
    (_hboot : boot < cfg.PLATFORM_CORE_COUNT)
    (h : psci_setup cfg arr boot mp ops s0 = some (s', caps, r)) :
    (s'.cpu_data boot).psci_state = PowerState.on ∧
    (∀ l, l < cfg.PLAT_MAX_PWR_LVL →
      (s'.non_cpu_pd_nodes (temp_index s' boot l)).psci_state =
        PowerState.on) ∧
    (∀ c, c < cfg.PLATFORM_CORE_COUNT → c ≠ boot →
      (s'.cpu_data c).psci_state = PowerState.off) := by
  unfold psci_setup at h
  split at h
  · exact absurd h (by simp)
  · rename_i s1 heq
    rcases ops with _ | o
    · exact absurd h (by simp)
    · simp only [Option.some.injEq, Prod.mk.injEq] at h
      obtain ⟨hs4, -, -⟩ := h
      have hleaf : ∀ c, c < cfg.PLATFORM_CORE_COUNT →
          (s1.cpu_data c).psci_state = PowerState.off :=
        fun c hc => (populate_leaves cfg arr cfg.PLAT_MAX_PWR_LVL s0 s1 hW
          hpos heq c hc).2.1
      set s2 := psci_update_pwrlvl_limits cfg s1 with hs2
      set s3 := updCpu s2 boot fun c => { c with mpidr := mp } with hs3
      have hs2data : s2.cpu_data = s1.cpu_data :=
        (updateLimitsOuter_frame cfg.PLAT_MAX_PWR_LVL cfg.PLATFORM_CORE_COUNT
          0 (fun _ => 0) s1).2.1
      have hs3data : s3.cpu_data = s1.cpu_data := hs2data
      obtain ⟨m1, m2, m3, m4, m5⟩ :=
        markAncestors_frame boot PowerState.on cfg.PLAT_MAX_PWR_LVL s3
      subst hs4
      unfold psci_do_state_coordination
      refine ⟨?_, ?_, ?_⟩
      · rw [updData_same, if_pos rfl]
      · intro l hl
        have htemp : ∀ c' j,
            temp_index (updData (markAncestors boot PowerState.on
              cfg.PLAT_MAX_PWR_LVL s3) boot
              fun d => { d with psci_state := PowerState.on }) c' j =
            temp_index s3 c' j := by
          intro c' j
          refine temp_index_congr s3 _ (fun c0 => ?_) (fun i => ?_) c' j
          · show ((markAncestors boot PowerState.on cfg.PLAT_MAX_PWR_LVL
              s3).cpu_pd_nodes c0).parent_node = _
            rw [m1]
          · show ((markAncestors boot PowerState.on cfg.PLAT_MAX_PWR_LVL
              s3).non_cpu_pd_nodes i).parent_node = _
            exact (m4 i).2.1
        rw [htemp boot l]
        show ((markAncestors boot PowerState.on cfg.PLAT_MAX_PWR_LVL
          s3).non_cpu_pd_nodes (temp_index s3 boot l)).psci_state =
          PowerState.on
        exact markAncestors_on boot PowerState.on cfg.PLAT_MAX_PWR_LVL s3 l hl
      · intro c hc hne
        have e1 : (updData (markAncestors boot PowerState.on
            cfg.PLAT_MAX_PWR_LVL s3) boot
            fun d => { d with psci_state := PowerState.on }).cpu_data c =
            (markAncestors boot PowerState.on cfg.PLAT_MAX_PWR_LVL
              s3).cpu_data c := by
          rw [updData_same, if_neg hne]
        rw [e1, m2, hs3data]
        exact hleaf c hc

/-- Closed instance of `C5_boot_path_on` on the example platform with
booting CPU 0. -/
theorem C5_boot_path_on_witness :
    ((setup4val.1).cpu_data 0).psci_state = PowerState.on ∧
    (∀ l, l < cfg4.PLAT_MAX_PWR_LVL →
      ((setup4val.1).non_cpu_pd_nodes
        (temp_index setup4val.1 0 l)).psci_state = PowerState.on) ∧
    (∀ c, c < cfg4.PLATFORM_CORE_COUNT → c ≠ 0 →
      ((setup4val.1).cpu_data c).psci_state = PowerState.off) :=
  C5_boot_path_on cfg4 desc4 0 17 (some opsAll) initSys setup4val.1
    setup4val.2.1 setup4val.2.2 (by decide) (by decide) (by decide) (by rfl)

/-- Range exactness of the aggregation pass: on a state whose aggregate
fields are zero, whose per-level ancestor maps are block-contiguous, and
whose ancestor index sets at distinct levels are disjoint, the pass
computes for every node index `i` a range `[cpu_start_idx, cpu_start_idx
+ ncpus)` containing exactly the CPUs whose ancestor chain passes
through `i`. -/
theorem range_exact_core (cfg : Plat) (s : Sys)
    (hzero : ∀ i, ncpusOf s i = 0 ∧ startOf s i = 0)
    (hcontig : ∀ j, j < cfg.PLAT_MAX_PWR_LVL →
      AncContiguous s cfg.PLATFORM_CORE_COUNT j)
    (hdisj : ∀ j j', j < cfg.PLAT_MAX_PWR_LVL → j' < cfg.PLAT_MAX_PWR_LVL →
      j ≠ j' → ∀ c c', c < cfg.PLATFORM_CORE_COUNT →
      c' < cfg.PLATFORM_CORE_COUNT →
      temp_index s c j ≠ temp_index s c' j') (i : Nat) :
    ∀ c, c < cfg.PLATFORM_CORE_COUNT →
      ((∃ j, j < cfg.PLAT_MAX_PWR_LVL ∧ temp_index s c j = i) ↔
       (startOf (psci_update_pwrlvl_limits cfg s) i ≤ c ∧
        c < startOf (psci_update_pwrlvl_limits cfg s) i +
          ncpusOf (psci_update_pwrlvl_limits cfg s) i)) := by
  set N := cfg.PLATFORM_CORE_COUNT with hNdef
  set L := cfg.PLAT_MAX_PWR_LVL with hLdef
  have houter_eq : psci_update_pwrlvl_limits cfg s =
      updateLimitsOuter L N 0 (fun _ => 0) s := rfl
  have hncpus_gen : ncpusOf (psci_update_pwrlvl_limits cfg s) i =
      (Finset.range N).sum (fun k =>
        ((Finset.range L).filter (fun j => temp_index s k j = i)).card) := by
    rw [houter_eq, updateLimitsOuter_ncpus, (hzero i).1]
    simp only [Nat.zero_add]
  by_cases hin : ∃ c0, c0 < N ∧ ∃ j0, j0 < L ∧ temp_index s c0 j0 = i
  case neg =>
    push_neg at hin
    have hnc : ncpusOf (psci_update_pwrlvl_limits cfg s) i = 0 := by
      rw [hncpus_gen]
      refine Finset.sum_eq_zero fun k hk => ?_
      rw [Finset.card_eq_zero, Finset.filter_eq_empty_iff]
      intro j hj
      exact hin k (Finset.mem_range.mp hk) j (Finset.mem_range.mp hj)
    have hst : startOf (psci_update_pwrlvl_limits cfg s) i = 0 := by
      rw [houter_eq]
      rw [updateLimitsOuter_start_unchanged L N 0 (fun _ => 0) s i
        (fun k hk ha => ?_), (hzero i).2]
      obtain ⟨j, hj, h1, -⟩ := ha
      rw [Nat.zero_add] at h1
      exact hin k hk j hj h1
    intro c hc
    constructor
    · rintro ⟨j, hj, hje⟩
      exact absurd hje (hin c hc j hj)
    · rintro ⟨-, h2⟩
      rw [hst, hnc] at h2
      omega
  case pos =>
    obtain ⟨c0, hc0N, j0, hj0, h0⟩ := hin
    have juniq : ∀ c j, c < N → j < L → temp_index s c j = i → j = j0 := by
      intro c j hc hj hje
      by_contra hne
      exact hdisj j j0 hj hj0 hne c c0 hc hc0N (hje.trans h0.symm)
    set F : Finset Nat :=
      (Finset.range N).filter (fun c => temp_index s c j0 = i) with hFdef
    have hmemF : ∀ c, c ∈ F ↔ (c < N ∧ temp_index s c j0 = i) := by
      intro c
      rw [hFdef, Finset.mem_filter, Finset.mem_range]
    have hneF : F.Nonempty := ⟨c0, (hmemF c0).mpr ⟨hc0N, h0⟩⟩
    set a := F.min' hneF with hadef
    set b := F.max' hneF with hbdef
    have haF : a ∈ F := F.min'_mem hneF
    have hbF : b ∈ F := F.max'_mem hneF
    have haN : a < N := ((hmemF a).mp haF).1
    have hbN : b < N := ((hmemF b).mp hbF).1
    have hta : temp_index s a j0 = i := ((hmemF a).mp haF).2
    have htb : temp_index s b j0 = i := ((hmemF b).mp hbF).2
    have hab : a ≤ b := F.min'_le b hbF
    have hint : ∀ c, a ≤ c → c ≤ b → c ∈ F := by
      intro c hac hcb
      refine (hmemF c).mpr ⟨by omega, ?_⟩
      have := hcontig j0 hj0 a c b hac hcb hbN (hta.trans htb.symm)
      rw [this, hta]
    have hIcc : F = Finset.Icc a b := by
      ext c
      rw [Finset.mem_Icc]
      constructor
      · intro hcF
        exact ⟨F.min'_le c hcF, F.le_max' c hcF⟩
      · rintro ⟨h1, h2⟩
        exact hint c h1 h2
    have hcardF : F.card = b + 1 - a := by
      rw [hIcc, Nat.card_Icc]
    have hnc : ncpusOf (psci_update_pwrlvl_limits cfg s) i = F.card := by
      rw [hncpus_gen]
      have hcard1 : ∀ k, k ∈ Finset.range N →
          ((Finset.range L).filter (fun j => temp_index s k j = i)).card =
            (if temp_index s k j0 = i then 1 else 0) := by
        intro k hk
        have hkN := Finset.mem_range.mp hk
        by_cases ht : temp_index s k j0 = i
        · rw [if_pos ht]
          have hone : (Finset.range L).filter
              (fun j => temp_index s k j = i) = {j0} := by
            ext j
            rw [Finset.mem_filter, Finset.mem_range, Finset.mem_singleton]
            constructor
            · rintro ⟨hj, hje⟩
              exact juniq k j hkN hj hje
            · rintro rfl
              exact ⟨hj0, ht⟩
          rw [hone, Finset.card_singleton]
        · rw [if_neg ht, Finset.card_eq_zero, Finset.filter_eq_empty_iff]
          intro j hj
          intro hje
          have := juniq k j hkN (Finset.mem_range.mp hj) hje
          subst this
          exact ht hje
      rw [Finset.sum_congr rfl hcard1, hFdef]
      rw [Finset.card_filter]
    have hst : startOf (psci_update_pwrlvl_limits cfg s) i = a := by
      rw [houter_eq]
      by_cases hcase : 1 ≤ a ∨ i ≠ 0
      · have hassA : Assigns s L (fun _ => 0) 0 a i := by
          refine ⟨j0, hj0, ?_, ?_⟩
          · rw [Nat.zero_add]
            exact hta
          · rw [Nat.zero_add]
            rcases Nat.eq_zero_or_pos a with ha0 | hapos
            · rw [if_pos ha0, hta]
              have : i ≠ 0 := by
                rcases hcase with h | h
                · omega
                · exact h
              exact this
            · rw [if_neg (by omega), hta]
              intro hcontra
              have hmem : a - 1 ∈ F := (hmemF (a - 1)).mpr ⟨by omega,
                hcontra.symm⟩
              have := F.min'_le (a - 1) hmem
              omega
        have huniq : ∀ k, k < N → Assigns s L (fun _ => 0) 0 k i → k = a := by
          rintro k hkN ⟨j, hj, h1, h2⟩
          rw [Nat.zero_add] at h1 h2
          have hjj0 := juniq k j hkN hj h1
          rw [hjj0] at h1 h2
          have hkF : k ∈ F := (hmemF k).mpr ⟨hkN, h1⟩
          have hak : a ≤ k := F.min'_le k hkF
          by_contra hne
          have hkpos : 0 < k := by omega
          rw [if_neg (by omega)] at h2
          have hk1F : k - 1 ∈ F := hint (k - 1) (by omega)
            (by have := F.le_max' k hkF; omega)
          have : temp_index s (k - 1) j0 = i := ((hmemF (k - 1)).mp hk1F).2
          rw [h1] at h2
          exact h2 (this.symm)
        have := updateLimitsOuter_start_unique L N 0 (fun _ => 0) s i a
          haN hassA huniq
        rw [this, Nat.zero_add]
      · push_neg at hcase
        obtain ⟨ha1, hi0⟩ := hcase
        have ha0 : a = 0 := by omega
        have hnoass : ∀ k, k < N → ¬ Assigns s L (fun _ => 0) 0 k i := by
          rintro k hkN ⟨j, hj, h1, h2⟩
          rw [Nat.zero_add] at h1 h2
          have hjj0 := juniq k j hkN hj h1
          rw [hjj0] at h1 h2
          have hkF : k ∈ F := (hmemF k).mpr ⟨hkN, h1⟩
          rcases Nat.eq_zero_or_pos k with hk0 | hkpos
          · rw [if_pos hk0] at h2
            rw [h1, hi0] at h2
            exact h2 rfl
          · rw [if_neg (by omega)] at h2
            have hk1F : k - 1 ∈ F := hint (k - 1) (by omega)
              (by have := F.le_max' k hkF; omega)
            have : temp_index s (k - 1) j0 = i := ((hmemF (k - 1)).mp hk1F).2
            rw [h1] at h2
            exact h2 this.symm
        rw [updateLimitsOuter_start_unchanged L N 0 (fun _ => 0) s i hnoass,
          (hzero i).2, ha0]
    intro c hc
    rw [hst, hnc, hcardF]
    constructor
    · rintro ⟨j, hj, hje⟩
      have hjj0 := juniq c j hc hj hje
      rw [hjj0] at hje
      have hcF : c ∈ F := (hmemF c).mpr ⟨hc, hje⟩
      have h1 := F.min'_le c hcF
      have h2 := F.le_max' c hcF
      omega
    · rintro ⟨h1, h2⟩
      have hcF : c ∈ F := hint c h1 (by omega)
      exact ⟨j0, hj0, ((hmemF c).mp hcF).2⟩

/-- C1: assuming the platform description allocates children of the same
parent at index-contiguous slots — formalized on the built tree as
block-contiguous per-level ancestor maps and disjoint ancestor index
sets at distinct levels — after `populate_power_domain_tree` (from
zeroed aggregate fields) followed by `psci_update_pwrlvl_limits`, for
every node `i` of `psci_non_cpu_pd_nodes` the CPU leaves with indices in
`[cpu_start_idx, cpu_start_idx + ncpus)` are exactly the CPUs whose
`parent_node` ancestor chain passes through `i`. -/
theorem C1_range_exactness (cfg : Plat) (arr : Nat → Nat) (s0 s1 : Sys)
    (hzero : ∀ k, (s0.non_cpu_pd_nodes k).ncpus = 0 ∧
      (s0.non_cpu_pd_nodes k).cpu_start_idx = 0)
    (hpop : populate_power_domain_tree cfg arr cfg.PLAT_MAX_PWR_LVL s0 =
      some s1)
    (hcontig : ∀ j, j < cfg.PLAT_MAX_PWR_LVL →
      AncContiguous s1 cfg.PLATFORM_CORE_COUNT j)
    (hdisj : ∀ j, j < cfg.PLAT_MAX_PWR_LVL →
      ∀ j', j' < cfg.PLAT_MAX_PWR_LVL → j ≠ j' →
      ∀ c, c < cfg.PLATFORM_CORE_COUNT →
      ∀ c', c' < cfg.PLATFORM_CORE_COUNT →
      temp_index s1 c j ≠ temp_index s1 c' j') :
    ∀ i c, c < cfg.PLATFORM_CORE_COUNT →
      ((∃ j, j < cfg.PLAT_MAX_PWR_LVL ∧ temp_index s1 c j = i) ↔
       (startOf (psci_update_pwrlvl_limits cfg s1) i ≤ c ∧
        c < startOf (psci_update_pwrlvl_limits cfg s1) i +
          ncpusOf (psci_update_pwrlvl_limits cfg s1) i)) := by
  intro i
  have hz1 : ∀ k, ncpusOf s1 k = 0 ∧ startOf s1 k = 0 := by
    intro k
    obtain ⟨e1, e2, -⟩ :=
      populate_preserves cfg arr cfg.PLAT_MAX_PWR_LVL s0 s1 hpop k
    exact ⟨e1.trans (hzero k).1, e2.trans (hzero k).2⟩
  exact range_exact_core cfg s1 hz1 hcontig
    (fun j j' hj hj' hne c c' hc hc' => hdisj j hj j' hj' hne c hc c' hc') i

/-- Closed instance of `C1_range_exactness` on the example platform:
CPU 3 lies in cluster 1's range iff its ancestor chain passes through
node 2. -/
theorem C1_range_exactness_witness :
    (∃ j, j < cfg4.PLAT_MAX_PWR_LVL ∧ temp_index built4 3 j = 2) ↔
    (startOf (psci_update_pwrlvl_limits cfg4 built4) 2 ≤ 3 ∧
     3 < startOf (psci_update_pwrlvl_limits cfg4 built4) 2 +
       ncpusOf (psci_update_pwrlvl_limits cfg4 built4) 2) :=
  C1_range_exactness cfg4 desc4 initSys built4 (fun k => ⟨rfl, rfl⟩)
    (by rfl) (by decide) (by decide) 2 3 (by decide)

/-- C6: for every valid topology description — a successful build whose
sibling allocation is index-contiguous (block-contiguous ancestor maps,
level-disjoint ancestor sets, level fields consistent with ancestor
depth) — the built tree satisfies: a node's ancestor one level up is its
`parent_node`; the CPU ranges of two distinct sibling nodes (same parent
link, same level) are disjoint (each range being a contiguous interval
`[cpu_start_idx, cpu_start_idx + ncpus)` by construction); every child
node's range is a subset of its parent's range; and every root-level
node has `parent_node = -1`. -/
theorem C6_tree_invariants (cfg : Plat) (arr : Nat → Nat) (s0 s1 : Sys)
    (hzero : ∀ k, (s0.non_cpu_pd_nodes k).ncpus = 0 ∧
      (s0.non_cpu_pd_nodes k).cpu_start_idx = 0)
    (hL : 0 < cfg.PLAT_MAX_PWR_LVL)
    (hpop : populate_power_domain_tree cfg arr cfg.PLAT_MAX_PWR_LVL s0 =
      some s1)
    (hcontig : ∀ j, j < cfg.PLAT_MAX_PWR_LVL →
      AncContiguous s1 cfg.PLATFORM_CORE_COUNT j)
    (hdisj : ∀ j, j < cfg.PLAT_MAX_PWR_LVL →
      ∀ j', j' < cfg.PLAT_MAX_PWR_LVL → j ≠ j' →
      ∀ c, c < cfg.PLATFORM_CORE_COUNT →
      ∀ c', c' < cfg.PLATFORM_CORE_COUNT →
      temp_index s1 c j ≠ temp_index s1 c' j')
    (hlevel : ∀ j, j < cfg.PLAT_MAX_PWR_LVL →
      ∀ c, c < cfg.PLATFORM_CORE_COUNT →
      (s1.non_cpu_pd_nodes (temp_index s1 c j)).level = ((j + 1 : Nat) : Int)) :
    (∀ i, i < arr 0 → (s1.non_cpu_pd_nodes i).parent_node = -1) ∧
    (∀ j c, temp_index s1 c (j + 1) =
      ((s1.non_cpu_pd_nodes (temp_index s1 c j)).parent_node).toNat) ∧
    (∀ j, j + 1 < cfg.PLAT_MAX_PWR_LVL →
      ∀ c, c < cfg.PLATFORM_CORE_COUNT →
      ∀ x, x < cfg.PLATFORM_CORE_COUNT →
      inRange (psci_update_pwrlvl_limits cfg s1) (temp_index s1 c j) x →
      inRange (psci_update_pwrlvl_limits cfg s1) (temp_index s1 c (j + 1)) x) ∧
    (∀ j, j < cfg.PLAT_MAX_PWR_LVL → ∀ j', j' < cfg.PLAT_MAX_PWR_LVL →
      ∀ c, c < cfg.PLATFORM_CORE_COUNT →
      ∀ c', c' < cfg.PLATFORM_CORE_COUNT →
      temp_index s1 c j ≠ temp_index s1 c' j' →
      (s1.non_cpu_pd_nodes (temp_index s1 c j)).parent_node =
        (s1.non_cpu_pd_nodes (temp_index s1 c' j')).parent_node →
      (s1.non_cpu_pd_nodes (temp_index s1 c j)).level =
        (s1.non_cpu_pd_nodes (temp_index s1 c' j')).level →
      ∀ x, x < cfg.PLATFORM_CORE_COUNT →
      inRange (psci_update_pwrlvl_limits cfg s1) (temp_index s1 c j) x →
      ¬ inRange (psci_update_pwrlvl_limits cfg s1) (temp_index s1 c' j') x) := by
  have hz1 : ∀ k, ncpusOf s1 k = 0 ∧ startOf s1 k = 0 := by
    intro k
    obtain ⟨e1, e2, -⟩ :=
      populate_preserves cfg arr cfg.PLAT_MAX_PWR_LVL s0 s1 hpop k
    exact ⟨e1.trans (hzero k).1, e2.trans (hzero k).2⟩
  have hdisj' : ∀ j j', j < cfg.PLAT_MAX_PWR_LVL → j' < cfg.PLAT_MAX_PWR_LVL →
      j ≠ j' → ∀ c c', c < cfg.PLATFORM_CORE_COUNT →
      c' < cfg.PLATFORM_CORE_COUNT → temp_index s1 c j ≠ temp_index s1 c' j' :=
    fun j j' hj hj' hne c c' hc hc' => hdisj j hj j' hj' hne c hc c' hc'
  have hexact := range_exact_core cfg s1 hz1 hcontig hdisj'
  have hstep : ∀ j c, temp_index s1 c (j + 1) =
      ((s1.non_cpu_pd_nodes (temp_index s1 c j)).parent_node).toNat :=
    fun j c => rfl
  refine ⟨populate_roots cfg arr cfg.PLAT_MAX_PWR_LVL s0 s1 hL hpop |>
    (fun h i hi => (h i hi).1), hstep, ?_, ?_⟩
  · intro j hj1 c hc x hx hxin
    obtain ⟨jx, hjx, hjxe⟩ := (hexact (temp_index s1 c j) x hx).mpr hxin
    have hjxj : jx = j := by
      by_contra hne
      exact hdisj' jx j hjx (by omega) hne x c hx hc hjxe
    rw [hjxj] at hjxe
    refine (hexact (temp_index s1 c (j + 1)) x hx).mp ⟨j + 1, hj1, ?_⟩
    rw [hstep j x, hjxe, ← hstep j c]
  · intro j hj j' hj' c hc c' hc' hne hpar hlev x hx hxin hxin'
    obtain ⟨jx, hjx, hjxe⟩ := (hexact (temp_index s1 c j) x hx).mpr hxin
    obtain ⟨jy, hjy, hjye⟩ := (hexact (temp_index s1 c' j') x hx).mpr hxin'
    have hjxj : jx = j := by
      by_contra hnejx
      exact hdisj' jx j hjx hj hnejx x c hx hc hjxe
    have hjyj : jy = j' := by
      by_contra hnejy
      exact hdisj' jy j' hjy hj' hnejy x c' hx hc' hjye
    rw [hjxj] at hjxe
    rw [hjyj] at hjye
    have hl1 : (s1.non_cpu_pd_nodes (temp_index s1 c j)).level =
        ((j + 1 : Nat) : Int) := hlevel j hj c hc
    have hl2 : (s1.non_cpu_pd_nodes (temp_index s1 c' j')).level =
        ((j' + 1 : Nat) : Int) := hlevel j' hj' c' hc'
    have hjj' : j = j' := by
      rw [hl1, hl2] at hlev
      exact_mod_cast Nat.succ_injective (by exact_mod_cast hlev)
    have hxx : temp_index s1 x j = temp_index s1 x j' := by rw [hjj']
    exact hne ((hjxe.symm.trans hxx).trans hjye)

/-- Closed instance of `C6_tree_invariants` on the example platform: the
system root has parent `-1`, and the two sibling cluster nodes' ranges
are disjoint (CPU 0 lies in cluster 0's range, hence not in cluster
1's). -/
theorem C6_tree_invariants_witness :
    (built4.non_cpu_pd_nodes 0).parent_node = -1 ∧
    ¬ inRange (psci_update_pwrlvl_limits cfg4 built4)
        (temp_index built4 2 0) 0 :=
  ⟨(C6_tree_invariants cfg4 desc4 initSys built4 (fun k => ⟨rfl, rfl⟩)
      (by decide) (by rfl) (by decide) (by decide) (by decide)).1 0 (by decide),
   (C6_tree_invariants cfg4 desc4 initSys built4 (fun k => ⟨rfl, rfl⟩)
      (by decide) (by rfl) (by decide) (by decide) (by decide)).2.2.2
      0 (by decide) 0 (by decide) 0 (by decide) 2 (by decide)
      (by decide) (by decide) (by decide) 0 (by decide) (by decide)⟩

end Psci
